import Mathlib

set_option maxHeartbeats 1000000

/-!
Verification of the vendor-invoice reconciliation core of `app.py`.

Strings are modelled as `List Char` (`Str`); pandas `NaN` / missing cells as
`none : Option _`; floating-point amounts as exact rationals `ℚ`.
-/

abbrev Str := List Char

/-- Convert a Lean string literal into the `List Char` model. -/
def litS (s : String) : Str := s.data

/-- The whitespace characters recognised by Python's `str.strip` / `str.split`
(ASCII subset; the repository's data is ASCII). -/
def isSpaceCh (c : Char) : Bool :=
  c = ' ' || c = '\t' || c = '\n' || c = '\r' || c = '\x0b' || c = '\x0c'

/-- Characters collapsed by `re.sub(r"[-_]+", " ", text)` in `normalize_name`. -/
def isDashCh (c : Char) : Bool := c = '-' || c = '_'

/-- Python `str.lower` restricted to ASCII letters (per-character). -/
def pyLower (c : Char) : Char :=
  if 65 ≤ c.toNat ∧ c.toNat ≤ 90 then Char.ofNat (c.toNat + 32) else c

/-- Python `str.strip()`: drop leading and trailing whitespace. -/
def stripWs (l : Str) : Str :=
  ((l.dropWhile isSpaceCh).reverse.dropWhile isSpaceCh).reverse

/-- `re.sub(r"[-_]+", " ", text)`: each maximal run of `-`/`_` becomes one
space.  The boolean flag records whether the previous character was in a run. -/
def subDash : Bool → Str → Str
  | _, [] => []
  | prevDash, c :: cs =>
    if isDashCh c then
      if prevDash then subDash true cs else ' ' :: subDash true cs
    else c :: subDash false cs

/-- Python `str.split()` (no separator): split on whitespace runs, dropping
empty pieces.  `acc` holds the current token reversed. -/
def splitAux : Str → Str → List Str
  | acc, [] => if acc = [] then [] else [acc.reverse]
  | acc, c :: cs =>
    if isSpaceCh c then
      if acc = [] then splitAux [] cs else acc.reverse :: splitAux [] cs
    else splitAux (c :: acc) cs

def pySplit (l : Str) : List Str := splitAux [] l

/-- Python `" ".join(tokens)`. -/
def joinSp : List Str → Str
  | [] => []
  | [t] => t
  | t :: u :: ts => t ++ ' ' :: joinSp (u :: ts)

/-- `normalize_name` from `app.py`: strip, lowercase, collapse `-`/`_` runs to
a space, then collapse whitespace runs (`" ".join(text.split())`). -/
def normalize_name (s : Str) : Str :=
  joinSp (pySplit (subDash false ((stripWs s).map pyLower)))

/-- Characters stripped by `text.strip("()")`. -/
def isParenCh (c : Char) : Bool := c = '(' || c = ')'

/-- Python `text.strip("()")`: remove any parentheses at either end. -/
def stripParens (l : Str) : Str :=
  ((l.dropWhile isParenCh).reverse.dropWhile isParenCh).reverse

/-- The characters kept by `re.sub(r"[^\d\.\-]", "", ...)`. -/
def keepNumCh (c : Char) : Bool := c.isDigit || c = '.' || c = '-'

/-- `text.replace(",", "")` followed by `re.sub(r"[^\d\.\-]", "", ...)`. -/
def cleanNum (l : Str) : Str :=
  (l.filter (fun c => !(c = ','))).filter keepNumCh

/-- Numeric value of a digit string (most significant first). -/
def digitsToNat (l : Str) : ℕ := l.foldl (fun a c => 10 * a + (c.toNat - 48)) 0

/-- Python `float(text)` on an unsigned input drawn from the alphabet
`{digits, '.', '-'}`: `digits [. digits]` with at least one digit. -/
def pyFloatCore (l : Str) : Option ℚ :=
  let ip := l.takeWhile Char.isDigit
  let rest := l.dropWhile Char.isDigit
  match rest with
  | [] => if ip = [] then none else some (digitsToNat ip)
  | '.' :: fp =>
    if fp.all Char.isDigit ∧ (ip ≠ [] ∨ fp ≠ []) then
      some ((digitsToNat ip : ℚ) + (digitsToNat fp : ℚ) / (10 : ℚ) ^ fp.length)
    else none
  | _ => none

/-- Python `float(text)` (over the post-cleaning alphabet): an optional
leading minus sign, then an unsigned decimal literal. -/
def pyFloat (l : Str) : Option ℚ :=
  match l with
  | '-' :: rest => (pyFloatCore rest).map (fun q => -q)
  | _ => pyFloatCore l

/-- `parse_amount` from `app.py`.  The input is the raw cell: `none` models a
missing/NaN cell (`pd.isna`), `some s` a string cell. -/
def parse_amount : Option Str → Option ℚ
  | none => none
  | some v =>
    let text := stripWs v
    if text = [] then none
    else
      let isNeg := decide (text.head? = some '(') && decide (text.getLast? = some ')')
      let t3 := cleanNum (stripParens text)
      if t3 = [] ∨ t3 = ['-'] ∨ t3 = ['.'] ∨ t3 = ['-', '.'] then none
      else
        match pyFloat t3 with
        | none => none
        | some q => some (if isNeg then -q else q)

/-! ## Vendor sectionizer (the vendor-sheet cleaning block of `process_matches`) -/

/-- One raw vendor-sheet row.  `none` models a blank (NaN) cell. -/
structure VendorRow where
  vendor : Option Str
  amount : Option Str

/-- `vendor_work["Vendor"].ffill()`: blank vendor cells inherit the nearest
preceding non-blank name; rows before the first name keep `prev` (initially
`none`). -/
def ffillV : Option Str → List VendorRow → List VendorRow
  | _, [] => []
  | prev, r :: rs =>
    match r.vendor with
    | some s => ⟨some s, r.amount⟩ :: ffillV (some s) rs
    | none => ⟨prev, r.amount⟩ :: ffillV prev rs

/-- `vendor_work["Invoice Amount"].apply(parse_amount)`. -/
def parsedRows (rows : List VendorRow) : List (Option Str × Option ℚ) :=
  rows.map (fun r => (r.vendor, parse_amount r.amount))

/-- `vendor_work.dropna(subset=["Vendor"])`. -/
def dropNoVendor (l : List (Option Str × Option ℚ)) : List (Str × Option ℚ) :=
  l.filterMap (fun p => p.1.map (fun v => (v, p.2)))

/-- The cleaned vendor working table: ffilled names, parsed amounts, rows
without a vendor name dropped. -/
def vendorWork (rows : List VendorRow) : List (Str × Option ℚ) :=
  dropNoVendor (parsedRows (ffillV none rows))

/-- `(vendor_work["Vendor"] != vendor_work["Vendor"].shift()).cumsum()`:
attach the running section id to each row (a fresh id whenever the vendor
name differs from the previous row's; the first row always differs from the
shifted-in NaN). -/
def annotate : Option Str × ℕ → List (Str × Option ℚ) → List (ℕ × Str × Option ℚ)
  | _, [] => []
  | (prev, cur), (v, a) :: rs =>
    let i := if prev = some v then cur else cur + 1
    (i, v, a) :: annotate (some v, i) rs

/-- Split a list into maximal consecutive runs on which `f` relates adjacent
elements (used for `groupby("section_id")`, whose keys are nondecreasing, so
grouping is chunking). -/
def chunkAux (f : α → α → Bool) : α → List α → List α → List (List α)
  | _, accRev, [] => [accRev.reverse]
  | prev, accRev, y :: ys =>
    if f prev y then chunkAux f y (y :: accRev) ys
    else accRev.reverse :: chunkAux f y [y] ys

def chunkBy (f : α → α → Bool) : List α → List (List α)
  | [] => []
  | x :: xs => chunkAux f x [x] xs

/-- `s.dropna().iloc[-1] if not s.dropna().empty else None`. -/
def lastSomeQ (l : List (Option ℚ)) : Option ℚ := (l.filterMap id).getLast?

/-- The per-section aggregation of `section_totals`: `Vendor = last`,
`Invoice_Amount = last non-null`, then `dropna(subset=["Invoice_Amount"])`
(a section with no parseable amount yields nothing). -/
def sectionAgg (chunk : List (Str × Option ℚ)) : Option (Str × ℚ) :=
  match chunk.getLast? with
  | none => none
  | some (v, _) =>
    match lastSomeQ (chunk.map (fun p => p.2)) with
    | none => none
    | some q => some (v, q)

/-- Insert `(v, q)` into a grouped association list, summing with an existing
entry for the same key. -/
def addToGroup : List (Str × ℚ) → Str → ℚ → List (Str × ℚ)
  | [], v, q => [(v, q)]
  | (w, s) :: rest, v, q =>
    if w = v then (w, s + q) :: rest else (w, s) :: addToGroup rest v q

/-- `groupby("Vendor").sum()` over the section totals (we keep first-occurrence
order of keys; pandas sorts group keys, but no claim depends on the order of
the produced vendor totals, only on their values). -/
def groupSum (l : List (Str × ℚ)) : List (Str × ℚ) :=
  l.foldl (fun acc p => addToGroup acc p.1 p.2) []

/-- The `section_totals` table of `process_matches`. -/
def sectionTotals (rows : List VendorRow) : List (Str × ℚ) :=
  (chunkBy (fun p q => decide (p.1 = q.1)) (annotate (none, 0) (vendorWork rows))).filterMap
    (fun ch => sectionAgg (ch.map (fun p => p.2)))

/-- `vendor_grouped`: one entry per distinct (post-ffill) vendor-name string,
its amount the sum of that vendor's section contributions. -/
def vendorGrouped (rows : List VendorRow) : List (Str × ℚ) := groupSum (sectionTotals rows)

/-- Modelled from the spec (§4.3, steps 3-5): partition the cleaned rows into
maximal runs of identical vendor names directly (no section ids), take each
run's last parseable amount, and group-sum by exact vendor-name string. -/
def specSectionize (rows : List VendorRow) : List (Str × ℚ) :=
  groupSum ((chunkBy (fun p q => decide (p.1 = q.1)) (vendorWork rows)).filterMap sectionAgg)

/-! ## Matcher / reconciler (`process_matches`) -/

/-- A ledger row.  `invoiceTotal` is the result of
`pd.to_numeric(universal_df["Invoice Total"], errors="coerce")`: `none` for a
blank or unparseable cell, otherwise its numeric value. -/
structure LedgerRow where
  supplier : Str
  payMethod : Str
  invoiceTotal : Option ℚ

/-- Lookup in an association list (Python dict access). -/
def alistFind : List (Str × ℕ) → Str → Option ℕ
  | [], _ => none
  | (k, v) :: rest, q => if k = q then some v else alistFind rest q

/-- Python dict assignment `d[k] = v`: overwrite an existing key in place,
otherwise append at the end (insertion order preserved). -/
def dictInsert : List (Str × ℕ) → Str → ℕ → List (Str × ℕ)
  | [], k, v => [(k, v)]
  | (k0, v0) :: rest, k, v =>
    if k0 = k then (k0, v) :: rest else (k0, v0) :: dictInsert rest k v

def buildMapAux : ℕ → List Str → List (Str × ℕ) → List (Str × ℕ)
  | _, [], m => m
  | i, n :: ns, m => buildMapAux (i + 1) ns (dictInsert m n i)

/-- `{name: idx for idx, name in supplier_norm.items()}`: normalized supplier
name → row index.  A duplicated name keeps its first insertion position but
its value is overwritten by the **last** row bearing it. -/
def supplier_index_map (ns : List Str) : List (Str × ℕ) := buildMapAux 0 ns []

/-- `universal_df["Supplier"].astype(str).apply(normalize_name)`. -/
def supplier_norm (suppliers : List Str) : List Str := suppliers.map normalize_name

def startsWithL : Str → Str → Bool
  | [], _ => true
  | _ :: _, [] => false
  | c :: cs, d :: ds => decide (c = d) && startsWithL cs ds

/-- Python substring test `needle in hay`. -/
def containsL (needle : Str) : Str → Bool
  | [] => decide (needle = [])
  | d :: ds => startsWithL needle (d :: ds) || containsL needle ds

/-- The loop condition of the substring tier:
`vendor_norm and (vendor_norm in norm_name or norm_name in vendor_norm)`. -/
def substrCond (v d : Str) : Bool := (!v.isEmpty) && (containsL v d || containsL d v)

/-- The substring-tier scan: first dict entry whose key contains (or is
contained in) the non-empty normalized vendor name. -/
def findSubstringIdx : List (Str × ℕ) → Str → Option ℕ
  | [], _ => none
  | (name, idx) :: rest, v =>
    if substrCond v name then some idx
    else findSubstringIdx rest v

/-- One row of the longest-common-subsequence dynamic program.  Arguments:
remaining `ys`, the previous row's entry above-left (`diag`), the previous
row from the current column on (`prRest`), and the entry just computed
(`left`). -/
def lcsRow (x : Char) : List Char → ℕ → List ℕ → ℕ → List ℕ
  | [], _, _, _ => []
  | y :: ys, diag, prRest, left =>
    let up := prRest.headD 0
    let cur := if x = y then diag + 1 else max up left
    cur :: lcsRow x ys up prRest.tail cur

def lcsStep (ys : List Char) (row : List ℕ) (x : Char) : List ℕ :=
  0 :: lcsRow x ys (row.headD 0) row.tail 0

/-- Length of a longest common subsequence (the similarity kernel of
rapidfuzz's Indel distance: `dist = |a| + |b| - 2 * lcs`). -/
def lcsLen (xs ys : List Char) : ℕ :=
  (xs.foldl (lcsStep ys) (List.replicate (ys.length + 1) 0)).getLastD 0

/-- Lexicographic comparison of strings by code point (Python `sorted`). -/
def lexLeB : Str → Str → Bool
  | [], _ => true
  | _ :: _, [] => false
  | a :: as1, b :: bs1 =>
    if a.toNat < b.toNat then true
    else if a.toNat = b.toNat then lexLeB as1 bs1
    else false

def insertTok (x : Str) : List Str → List Str
  | [] => [x]
  | y :: ys => if lexLeB x y then x :: y :: ys else y :: insertTok x ys

def sortToks : List Str → List Str
  | [] => []
  | x :: xs => insertTok x (sortToks xs)

/-- `" ".join(sorted(s.split()))`: the token-sorted form used by
`fuzz.token_sort_ratio`. -/
def sortedJoin (s : Str) : Str := joinSp (sortToks (pySplit s))

/-- `fuzz.token_sort_ratio`: normalized Indel similarity of the token-sorted
strings, scaled to 0‥100 (exact rational model of the float score;
`200 * lcs / (|a| + |b|)`, with two empty strings scoring 100). -/
def tokenSortScore (a b : Str) : ℚ :=
  let x := sortedJoin a
  let y := sortedJoin b
  if x.length + y.length = 0 then 100
  else 200 * (lcsLen x y : ℚ) / ((x.length : ℚ) + (y.length : ℚ))

def SIMILARITY_THRESHOLD : ℚ := 85

/-- `process.extractOne(q, choices, scorer=fuzz.token_sort_ratio,
score_cutoff=85)`: best-scoring choice at or above the cutoff; a later choice
replaces the current best only when strictly better, so the first of equal
maxima wins. -/
def extractOneAux (q : Str) : Option (Str × ℚ) → List Str → Option (Str × ℚ)
  | best, [] => best
  | best, c :: cs =>
    let s := tokenSortScore q c
    let better : Bool :=
      match best with
      | none => true
      | some (_, bs) => decide (bs < s)
    if decide (SIMILARITY_THRESHOLD ≤ s) && better then extractOneAux q (some (c, s)) cs
    else extractOneAux q best cs

/-- Result of the three-tier resolution for one vendor: the target row index,
the `match_type` string and the score, or unmatched. -/
inductive Resolution where
  | matched (idx : ℕ) (matchType : Str) (score : ℚ)
  | unmatched
deriving DecidableEq

/-- The three-tier match resolution of the per-vendor loop body: exact dict
hit, then substring scan, then fuzzy `extractOne` (guarded on a non-empty
choice list, as in the source).  The inner `alistFind` on the fuzzy winner
mirrors `supplier_index_map[matched_norm]`; its `none` branch is unreachable
because `extractOne` returns one of the dict's keys. -/
def resolveVendor (smap : List (Str × ℕ)) (vnorm : Str) : Resolution :=
  match alistFind smap vnorm with
  | some idx => .matched idx (litS "exact") 100
  | none =>
    match findSubstringIdx smap vnorm with
    | some idx => .matched idx (litS "substring") 100
    | none =>
      let names := smap.map (fun p => p.1)
      let candidate := if names.isEmpty then none else extractOneAux vnorm none names
      match candidate with
      | some (mn, score) =>
        match alistFind smap mn with
        | some idx => .matched idx (litS "fuzzy") score
        | none => .unmatched
      | none => .unmatched

/-- One `matches_log` entry.  `supplierIdx` records the row index `idx` the
amount was added to (the dict value in scope at the append site); `supplier`
is `universal_df.loc[idx, "Supplier"]`. -/
structure MatchRecord where
  vendor : Str
  supplierIdx : ℕ
  supplier : Str
  matchType : Str
  score : ℚ
  amountAdded : ℚ
deriving DecidableEq

/-- One `unmatched_log` entry. -/
structure UnmatchedRecord where
  vendor : Str
  amount : ℚ
deriving DecidableEq

structure MatchState where
  totals : List ℚ
  matches_log : List MatchRecord
  unmatched_log : List UnmatchedRecord
deriving DecidableEq

/-- The body of the per-vendor loop: resolve, add the amount to the matched
row's running total and log the match, or log the vendor as unmatched. -/
def applyVendor (suppliers : List Str) (smap : List (Str × ℕ)) (st : MatchState)
    (vt : Str × ℚ) : MatchState :=
  match resolveVendor smap (normalize_name vt.1) with
  | .matched idx mt sc =>
    { totals := st.totals.set idx (st.totals.getD idx 0 + vt.2)
      matches_log := st.matches_log ++ [⟨vt.1, idx, suppliers.getD idx [], mt, sc, vt.2⟩]
      unmatched_log := st.unmatched_log }
  | .unmatched =>
    { totals := st.totals
      matches_log := st.matches_log
      unmatched_log := st.unmatched_log ++ [⟨vt.1, vt.2⟩] }

structure ProcOut where
  ledger : List LedgerRow
  matches_log : List MatchRecord
  unmatched_log : List UnmatchedRecord

/-- `original_invoice = pd.to_numeric(universal_df["Invoice Total"], errors="coerce")`
(the parse itself is modelled by `LedgerRow.invoiceTotal`). -/
def original_invoice (ledger : List LedgerRow) : List (Option ℚ) :=
  ledger.map (fun r => r.invoiceTotal)

/-- `invoice_totals = original_invoice.fillna(0)`: the running totals start at
the parsed value, or 0 for a blank/unparseable cell. -/
def invoice_totals0 (ledger : List LedgerRow) : List ℚ :=
  (original_invoice ledger).map (fun o => o.getD 0)

/-- The supplier lookup dict of a ledger. -/
def ledgerSmap (ledger : List LedgerRow) : List (Str × ℕ) :=
  supplier_index_map (supplier_norm (ledger.map (fun r => r.supplier)))

/-- The state after the per-vendor matching loop. -/
def finState (ledger : List LedgerRow) (vendorRows : List VendorRow) : MatchState :=
  (vendorGrouped vendorRows).foldl
    (applyVendor (ledger.map (fun r => r.supplier)) (ledgerSmap ledger))
    ⟨invoice_totals0 ledger, [], []⟩

/-- `updated_invoice`: the running totals, with a blank re-applied where the
original was blank and the running total is still exactly zero. -/
def updated_invoice (ledger : List LedgerRow) (vendorRows : List VendorRow) :
    List (Option ℚ) :=
  ((original_invoice ledger).zip (finState ledger vendorRows).totals).map
    (fun p => if p.1 = none ∧ p.2 = 0 then none else some p.2)

/-- The core of `process_matches` (schema checks aside, see `reconcile`):
sectionize the vendor sheet, resolve every vendor total, accumulate running
invoice totals (blank baseline 0), re-blank rows that were originally blank
and received no additions, and write the result back into the ledger's
`Invoice Total` column only. -/
def process_matches (ledger : List LedgerRow) (vendorRows : List VendorRow) : ProcOut :=
  { ledger := (ledger.zip (updated_invoice ledger vendorRows)).map
      (fun p => { p.1 with invoiceTotal := p.2 })
    matches_log := (finState ledger vendorRows).matches_log
    unmatched_log := (finState ledger vendorRows).unmatched_log }

/-- Sum of the `amount_added` values of the match records targeting row `i`. -/
def addedAt (ms : List MatchRecord) (i : ℕ) : ℚ :=
  ((ms.filter (fun m => decide (m.supplierIdx = i))).map (fun m => m.amountAdded)).sum

/-! ## Schema validation (`required_*_cols.issubset(...)` checks) -/

inductive SchemaError where
  | universalMissing (cols : List Str)
  | vendorMissing (cols : List Str)
deriving DecidableEq

def requiredUniversalCols : List Str :=
  [litS "Supplier", litS "Default payment method", litS "Invoice Total"]

def requiredVendorCols : List Str := [litS "Vendor", litS "Invoice Amount"]

/-- `required - set(columns)` (kept in the required list's order; the Python
value is a set, so only its membership is meaningful). -/
def missingFrom (required cols : List Str) : List Str :=
  required.filter (fun c => decide (¬ c ∈ cols))

/-- `process_matches` including its schema preconditions: the universal table
is checked first, then the vendor sheet; a missing column aborts before any
processing, so no partial output exists (the error carries only the missing
column names). -/
def reconcile (uCols vCols : List Str) (ledger : List LedgerRow)
    (vendorRows : List VendorRow) : Except SchemaError ProcOut :=
  if missingFrom requiredUniversalCols uCols ≠ [] then
    .error (.universalMissing (missingFrom requiredUniversalCols uCols))
  else if missingFrom requiredVendorCols vCols ≠ [] then
    .error (.vendorMissing (missingFrom requiredVendorCols vCols))
  else .ok (process_matches ledger vendorRows)

example : normalize_name (litS "  Acme--CORP_x  y ") = litS "acme corp x y" := by decide
example : parse_amount (some (litS "$1,234.56")) = some (123456 / 100 : ℚ) := by
  with_unfolding_all rfl
example : parse_amount (some (litS "(500)")) = some (-500 : ℚ) := by with_unfolding_all rfl
example : parse_amount (some (litS "")) = none := by decide
example : parse_amount (some (litS "abc")) = none := by decide

/-! ## Lemmas: the name normalizer -/

lemma toNat_ofNat_small (n : ℕ) (h : n < 55296) : (Char.ofNat n).toNat = n := by
  simp [Char.ofNat, Char.toNat, Nat.isValidChar, h, Char.ofNatAux, UInt32.toNat,
    BitVec.toNat_ofNatLt]

lemma pyLower_idem (c : Char) : pyLower (pyLower c) = pyLower c := by
  unfold pyLower
  by_cases h : 65 ≤ c.toNat ∧ c.toNat ≤ 90
  · rw [if_pos h]
    have ht : (Char.ofNat (c.toNat + 32)).toNat = c.toNat + 32 :=
      toNat_ofNat_small _ (by omega)
    rw [ht, if_neg (by omega)]
  · rw [if_neg h, if_neg h]

lemma splitAux_forall {P : Char → Prop} :
    ∀ (l acc : Str), (∀ c ∈ l, P c) → (∀ c ∈ acc, P c ∧ isSpaceCh c = false) →
      ∀ t ∈ splitAux acc l, t ≠ [] ∧ ∀ c ∈ t, P c ∧ isSpaceCh c = false := by
  intro l
  induction l with
  | nil =>
    intro acc hl hacc t ht
    unfold splitAux at ht
    by_cases h0 : acc = []
    · simp [h0] at ht
    · rw [if_neg h0] at ht
      simp only [List.mem_singleton] at ht
      subst ht
      refine ⟨by simpa using h0, ?_⟩
      intro c hc
      exact hacc c (List.mem_reverse.mp hc)
  | cons d ds ih =>
    intro acc hl hacc t ht
    unfold splitAux at ht
    by_cases hsp : isSpaceCh d = true
    · rw [if_pos hsp] at ht
      by_cases h0 : acc = []
      · rw [if_pos h0] at ht
        exact ih [] (fun c hc => hl c (List.mem_cons_of_mem _ hc)) (by simp) t ht
      · rw [if_neg h0] at ht
        rcases List.mem_cons.mp ht with rfl | ht2
        · refine ⟨by simpa using h0, ?_⟩
          intro c hc
          exact hacc c (List.mem_reverse.mp hc)
        · exact ih [] (fun c hc => hl c (List.mem_cons_of_mem _ hc)) (by simp) t ht2
    · rw [if_neg hsp] at ht
      refine ih (d :: acc) (fun c hc => hl c (List.mem_cons_of_mem _ hc)) ?_ t ht
      intro c hc
      rcases List.mem_cons.mp hc with rfl | hc2
      · exact ⟨hl c (List.mem_cons_self _ _), by simpa using hsp⟩
      · exact hacc c hc2

lemma mem_subDash : ∀ (b : Bool) (l : Str) (c : Char), c ∈ subDash b l →
    c = ' ' ∨ (c ∈ l ∧ isDashCh c = false) := by
  intro b l
  induction l generalizing b with
  | nil => simp [subDash]
  | cons d ds ih =>
    intro c hc
    unfold subDash at hc
    by_cases hd : isDashCh d = true
    · rw [if_pos hd] at hc
      by_cases hb : b = true
      · rw [if_pos hb] at hc
        rcases ih true c hc with h | ⟨h1, h2⟩
        · exact Or.inl h
        · exact Or.inr ⟨List.mem_cons_of_mem _ h1, h2⟩
      · rw [if_neg hb] at hc
        rcases List.mem_cons.mp hc with rfl | hc2
        · exact Or.inl rfl
        · rcases ih true c hc2 with h | ⟨h1, h2⟩
          · exact Or.inl h
          · exact Or.inr ⟨List.mem_cons_of_mem _ h1, h2⟩
    · rw [if_neg hd] at hc
      rcases List.mem_cons.mp hc with rfl | hc2
      · exact Or.inr ⟨List.mem_cons_self _ _, by simpa using hd⟩
      · rcases ih false c hc2 with h | ⟨h1, h2⟩
        · exact Or.inl h
        · exact Or.inr ⟨List.mem_cons_of_mem _ h1, h2⟩

lemma dropWhile_eq_self_of_head {p : Char → Bool} :
    ∀ l : Str, (∀ c, l.head? = some c → p c = false) → l.dropWhile p = l
  | [], _ => rfl
  | c :: cs, h => by simp [List.dropWhile_cons, h c rfl]

lemma stripWs_eq_self (l : Str)
    (h1 : ∀ c, l.head? = some c → isSpaceCh c = false)
    (h2 : ∀ c, l.getLast? = some c → isSpaceCh c = false) :
    stripWs l = l := by
  unfold stripWs
  rw [dropWhile_eq_self_of_head l h1,
    dropWhile_eq_self_of_head l.reverse (fun c hc => h2 c (by rwa [List.head?_reverse] at hc)),
    List.reverse_reverse]

lemma joinSp_ne_nil : ∀ (t : Str) (ts : List Str), t ≠ [] → joinSp (t :: ts) ≠ [] := by
  intro t ts ht
  cases ts with
  | nil => exact ht
  | cons u us =>
    show t ++ ' ' :: joinSp (u :: us) ≠ []
    simp

lemma joinSp_head? : ∀ (t : Str) (ts : List Str), t ≠ [] →
    (joinSp (t :: ts)).head? = t.head? := by
  intro t ts ht
  cases ts with
  | nil => rfl
  | cons u us =>
    show (t ++ ' ' :: joinSp (u :: us)).head? = t.head?
    cases t with
    | nil => exact absurd rfl ht
    | cons c cr => simp

lemma joinSp_getLast? : ∀ (ts : List Str), (∀ t ∈ ts, t ≠ []) →
    ∀ c, (joinSp ts).getLast? = some c → ∃ t ∈ ts, t.getLast? = some c := by
  intro ts
  induction ts with
  | nil => simp [joinSp]
  | cons t ts ih =>
    intro h c hc
    cases ts with
    | nil => exact ⟨t, by simp, hc⟩
    | cons u us =>
      have hju : joinSp (u :: us) ≠ [] := joinSp_ne_nil u us (h u (by simp))
      have : joinSp (t :: u :: us) = t ++ ' ' :: joinSp (u :: us) := rfl
      rw [this, List.getLast?_append_of_ne_nil _ (by simp),
        show (' ' :: joinSp (u :: us)) = [' '] ++ joinSp (u :: us) from rfl,
        List.getLast?_append_of_ne_nil _ hju] at hc
      obtain ⟨t2, ht2, hl2⟩ := ih (fun v hv => h v (List.mem_cons_of_mem _ hv)) c hc
      exact ⟨t2, List.mem_cons_of_mem _ ht2, hl2⟩

lemma mem_joinSp : ∀ (ts : List Str) (c : Char), c ∈ joinSp ts →
    c = ' ' ∨ ∃ t ∈ ts, c ∈ t := by
  intro ts
  induction ts with
  | nil => simp [joinSp]
  | cons t ts ih =>
    intro c hc
    cases ts with
    | nil => exact Or.inr ⟨t, by simp, hc⟩
    | cons u us =>
      have : joinSp (t :: u :: us) = t ++ ' ' :: joinSp (u :: us) := rfl
      rw [this] at hc
      rcases List.mem_append.mp hc with h | h
      · exact Or.inr ⟨t, by simp, h⟩
      · rcases List.mem_cons.mp h with rfl | h2
        · exact Or.inl rfl
        · rcases ih c h2 with h3 | ⟨t2, ht2, hc2⟩
          · exact Or.inl h3
          · exact Or.inr ⟨t2, List.mem_cons_of_mem _ ht2, hc2⟩

lemma map_pyLower_eq_self : ∀ l : Str, (∀ c ∈ l, pyLower c = c) → l.map pyLower = l := by
  intro l
  induction l with
  | nil => simp
  | cons c cs ih =>
    intro h
    simp only [List.map_cons]
    rw [h c (List.mem_cons_self _ _), ih (fun d hd => h d (List.mem_cons_of_mem _ hd))]

lemma subDash_eq_self : ∀ l : Str, (∀ c ∈ l, isDashCh c = false) → subDash false l = l := by
  intro l
  induction l with
  | nil => simp [subDash]
  | cons c cs ih =>
    intro h
    unfold subDash
    rw [if_neg (by simp [h c (List.mem_cons_self _ _)]),
      ih (fun d hd => h d (List.mem_cons_of_mem _ hd))]

lemma splitAux_nil (acc : Str) :
    splitAux acc [] = if acc = [] then [] else [acc.reverse] := rfl

lemma splitAux_cons (acc : Str) (c : Char) (cs : Str) :
    splitAux acc (c :: cs) =
      if isSpaceCh c then
        (if acc = [] then splitAux [] cs else acc.reverse :: splitAux [] cs)
      else splitAux (c :: acc) cs := rfl

lemma splitAux_skip_token : ∀ (t acc rest : Str), (∀ c ∈ t, isSpaceCh c = false) →
    splitAux acc (t ++ rest) = splitAux (t.reverse ++ acc) rest := by
  intro t
  induction t with
  | nil => intro acc rest _; simp
  | cons c cr ih =>
    intro acc rest h
    rw [List.cons_append, splitAux_cons, if_neg (by simp [h c (List.mem_cons_self _ _)]),
      ih (c :: acc) rest (fun d hd => h d (List.mem_cons_of_mem _ hd))]
    congr 1
    simp

lemma pySplit_joinSp : ∀ ts : List Str,
    (∀ t ∈ ts, t ≠ [] ∧ ∀ c ∈ t, isSpaceCh c = false) → pySplit (joinSp ts) = ts := by
  intro ts
  induction ts with
  | nil => intro _; rfl
  | cons t ts ih =>
    intro h
    obtain ⟨htne, htsp⟩ := h t (List.mem_cons_self _ _)
    cases ts with
    | nil =>
      show pySplit t = [t]
      unfold pySplit
      rw [show t = t ++ [] by simp, splitAux_skip_token t [] [] (by simpa using htsp)]
      rw [splitAux_nil, if_neg (by simpa using htne)]
      simp
    | cons u us =>
      show pySplit (t ++ ' ' :: joinSp (u :: us)) = t :: u :: us
      unfold pySplit
      rw [splitAux_skip_token t [] _ htsp, List.append_nil, splitAux_cons,
        if_pos (by rfl), if_neg (by simpa using htne)]
      rw [show splitAux [] (joinSp (u :: us)) = pySplit (joinSp (u :: us)) from rfl,
        ih (fun v hv => h v (List.mem_cons_of_mem _ hv))]
      simp

/-- The output of `normalize_name` is a space-joined list of tokens that are
nonempty and free of whitespace, dashes, underscores, and uppercase letters;
such a string is a fixed point of every stage of the normalizer. -/
lemma normalize_joinSp_fixed (ts : List Str)
    (htok : ∀ t ∈ ts, t ≠ [] ∧
      ∀ c ∈ t, (pyLower c = c ∧ isDashCh c = false) ∧ isSpaceCh c = false) :
    normalize_name (joinSp ts) = joinSp ts := by
  have htok2 : ∀ t ∈ ts, t ≠ [] ∧ ∀ c ∈ t, isSpaceCh c = false := by
    intro t ht
    obtain ⟨h1, h2⟩ := htok t ht
    exact ⟨h1, fun c hc => (h2 c hc).2⟩
  have hchar : ∀ c ∈ joinSp ts, pyLower c = c ∧ isDashCh c = false := by
    intro c hc
    rcases mem_joinSp ts c hc with rfl | ⟨t, ht, hct⟩
    · exact ⟨by decide, by decide⟩
    · exact ((htok t ht).2 c hct).1
  have h1 : stripWs (joinSp ts) = joinSp ts := by
    refine stripWs_eq_self _ ?_ ?_
    · intro c hc
      cases ts with
      | nil => simp [joinSp] at hc
      | cons t ts2 =>
        rw [joinSp_head? t ts2 (htok2 t (List.mem_cons_self _ _)).1] at hc
        exact ((htok2 t (List.mem_cons_self _ _)).2 c (List.mem_of_mem_head? hc))
    · intro c hc
      obtain ⟨t, ht, hlast⟩ := joinSp_getLast? ts (fun t ht => (htok2 t ht).1) c hc
      obtain ⟨hne, rfl⟩ := List.mem_getLast?_eq_getLast (show c ∈ t.getLast? from hlast)
      exact (htok2 t ht).2 _ (List.getLast_mem hne)
  have h2 : (joinSp ts).map pyLower = joinSp ts :=
    map_pyLower_eq_self _ (fun c hc => (hchar c hc).1)
  have h3 : subDash false (joinSp ts) = joinSp ts :=
    subDash_eq_self _ (fun c hc => (hchar c hc).2)
  have h4 : pySplit (joinSp ts) = ts := pySplit_joinSp ts htok2
  show joinSp (pySplit (subDash false ((stripWs (joinSp ts)).map pyLower))) = joinSp ts
  rw [h1, h2, h3, h4]

/-- (C9) `normalize_name` is idempotent: normalizing an already-normalized
name changes nothing. -/
theorem normalize_name_idempotent (x : Str) :
    normalize_name (normalize_name x) = normalize_name x := by
  have hzP : ∀ c ∈ subDash false ((stripWs x).map pyLower),
      (pyLower c = c ∧ isDashCh c = false) := by
    intro c hc
    rcases mem_subDash false _ c hc with rfl | ⟨h1, h2⟩
    · exact ⟨by decide, by decide⟩
    · obtain ⟨d, _, rfl⟩ := List.mem_map.mp h1
      exact ⟨pyLower_idem d, h2⟩
  have htok := splitAux_forall (P := fun c => pyLower c = c ∧ isDashCh c = false)
    (subDash false ((stripWs x).map pyLower)) [] hzP (by simp)
  exact normalize_joinSp_fixed (pySplit (subDash false ((stripWs x).map pyLower))) htok

/-! ## Lemmas: the amount parser -/

lemma dropWhile_eq_self_of_all {p : Char → Bool} (l : Str) (h : ∀ c ∈ l, p c = false) :
    l.dropWhile p = l :=
  dropWhile_eq_self_of_head l (fun c hc => h c (List.mem_of_mem_head? hc))

lemma mem_of_mem_stripWs {c : Char} {l : Str} (h : c ∈ stripWs l) : c ∈ l := by
  unfold stripWs at h
  rw [List.mem_reverse] at h
  have h2 := (List.dropWhile_sublist isSpaceCh).mem h
  rw [List.mem_reverse] at h2
  exact (List.dropWhile_sublist isSpaceCh).mem h2

lemma keepNumCh_of_space {c : Char} (h : isSpaceCh c = true) : keepNumCh c = false := by
  simp only [isSpaceCh, Bool.or_eq_true, decide_eq_true_eq] at h
  rcases h with ((((rfl | rfl) | rfl) | rfl) | rfl) | rfl <;> decide

lemma cleanNum_cons_space {c : Char} (l : Str) (h : isSpaceCh c = true) :
    cleanNum (c :: l) = cleanNum l := by
  have hne : ¬ c = ',' := by
    rintro rfl
    simp [isSpaceCh] at h
  unfold cleanNum
  rw [List.filter_cons_of_pos (by simp [hne]), List.filter_cons_of_neg (by simp [keepNumCh_of_space h])]

lemma cleanNum_dropWhile_space (l : Str) : cleanNum (l.dropWhile isSpaceCh) = cleanNum l := by
  induction l with
  | nil => rfl
  | cons c cs ih =>
    by_cases h : isSpaceCh c = true
    · rw [List.dropWhile_cons, if_pos h, ih, cleanNum_cons_space cs h]
    · rw [List.dropWhile_cons, if_neg h]

lemma cleanNum_reverse (l : Str) : cleanNum l.reverse = (cleanNum l).reverse := by
  unfold cleanNum
  rw [List.filter_reverse, List.filter_reverse]

lemma cleanNum_stripWs (l : Str) : cleanNum (stripWs l) = cleanNum l := by
  unfold stripWs
  rw [cleanNum_reverse, cleanNum_dropWhile_space, cleanNum_reverse, List.reverse_reverse,
    cleanNum_dropWhile_space]

lemma stripParens_eq_self_of_all (l : Str) (h : ∀ c ∈ l, isParenCh c = false) :
    stripParens l = l := by
  unfold stripParens
  rw [dropWhile_eq_self_of_all l h,
    dropWhile_eq_self_of_all l.reverse (fun c hc => h c (List.mem_reverse.mp hc)),
    List.reverse_reverse]

lemma stripParens_wrap (s : Str) (hs : ∀ c ∈ s, isParenCh c = false) :
    stripParens ('(' :: s ++ [')']) = s := by
  cases s with
  | nil => decide
  | cons c s2 =>
    have hc : isParenCh c = false := hs c (List.mem_cons_self _ _)
    unfold stripParens
    rw [List.cons_append, List.dropWhile_cons, if_pos (show isParenCh '(' = true by decide),
      List.cons_append, List.dropWhile_cons, if_neg (by simp [hc])]
    have h2 : (c :: (s2 ++ [')'])).reverse = ')' :: (c :: s2).reverse := by simp
    rw [h2, List.dropWhile_cons, if_pos (show isParenCh ')' = true by decide),
      dropWhile_eq_self_of_all _ (fun d hd => hs d (List.mem_reverse.mp hd)),
      List.reverse_reverse]

lemma parse_amount_paren (s : Str) (hs : ∀ c ∈ s, isParenCh c = false) :
    parse_amount (some ('(' :: s ++ [')'])) = (parse_amount (some s)).map (fun q => -q) := by
  have hlast : ('(' :: s ++ [')']).getLast? = some ')' := by
    rw [show ('(' :: s ++ [')']) = ('(' :: s) ++ [')'] from rfl, List.getLast?_concat]
  have hw : stripWs ('(' :: s ++ [')']) = '(' :: s ++ [')'] := by
    refine stripWs_eq_self _ ?_ ?_
    · intro c hc
      rw [show ('(' :: s ++ [')']).head? = some '(' from rfl, Option.some_inj] at hc
      subst hc; decide
    · intro c hc
      rw [hlast, Option.some_inj] at hc
      subst hc; decide
  have hclean : cleanNum (stripParens ('(' :: s ++ [')'])) = cleanNum s := by
    rw [stripParens_wrap s hs]
  rw [parse_amount, parse_amount]
  simp only [hw]
  rw [if_neg (by simp)]
  simp only [List.head?_cons, hlast, hclean]
  by_cases hE : stripWs s = []
  · rw [if_pos hE]
    have : cleanNum s = [] := by
      rw [← cleanNum_stripWs, hE]; rfl
    rw [this, if_pos (Or.inl rfl)]
    rfl
  · rw [if_neg hE]
    have hnotp : decide ((stripWs s).head? = some '(') = false := by
      cases hsw : stripWs s with
      | nil => exact absurd hsw hE
      | cons c cs =>
        have hmem : c ∈ s := mem_of_mem_stripWs (hsw ▸ List.mem_cons_self _ _)
        have := hs c hmem
        simp only [isParenCh, Bool.or_eq_false_iff, decide_eq_false_iff_not] at this
        simp [this.1]
    have hsp2 : stripParens (stripWs s) = stripWs s :=
      stripParens_eq_self_of_all _ (fun c hc => hs c (mem_of_mem_stripWs hc))
    rw [hsp2, cleanNum_stripWs, hnotp]
    by_cases hbad : cleanNum s = [] ∨ cleanNum s = ['-'] ∨ cleanNum s = ['.'] ∨
        cleanNum s = ['-', '.']
    · rw [if_pos hbad, if_pos hbad]
      rfl
    · rw [if_neg hbad, if_neg hbad]
      cases hpf : pyFloat (cleanNum s) with
      | none => rfl
      | some q => simp

/-- (C5) `parse_amount`: null and blank map to unparseable; a parenthesized
value parses as the negation of its interior; the concrete behaviours named
in the claim (currency symbols and thousands separators stripped, bare
sign/dot remnants unparseable, garbage unparseable, plain decimals parsed)
hold; the function is total, so it never raises. -/
theorem parse_amount_spec :
    parse_amount none = none
    ∧ (∀ s : Str, (∀ c ∈ s, isSpaceCh c = true) → parse_amount (some s) = none)
    ∧ (∀ s : Str, (∀ c ∈ s, isParenCh c = false) →
        parse_amount (some ('(' :: s ++ [')'])) = (parse_amount (some s)).map (fun q => -q))
    ∧ parse_amount (some (litS "$1,234.56")) = some (123456 / 100)
    ∧ parse_amount (some (litS "(500)")) = some (-500)
    ∧ parse_amount (some (litS "")) = none
    ∧ parse_amount (some (litS "abc")) = none
    ∧ parse_amount (some (litS "-")) = none
    ∧ parse_amount (some (litS "$-.")) = none
    ∧ parse_amount (some (litS "7.5")) = some (15 / 2) := by
  refine ⟨rfl, ?_, parse_amount_paren, ?_, ?_, by decide, by decide, by decide, by decide, ?_⟩
  · intro s h
    have h1 : stripWs s = [] := by
      unfold stripWs
      have : s.dropWhile isSpaceCh = [] := by
        induction s with
        | nil => rfl
        | cons c cs ih =>
          rw [List.dropWhile_cons, if_pos (h c (List.mem_cons_self _ _))]
          exact ih (fun d hd => h d (List.mem_cons_of_mem _ hd))
      rw [this]; rfl
    rw [parse_amount, h1]
    rfl
  · with_unfolding_all rfl
  · with_unfolding_all rfl
  · with_unfolding_all rfl

/-- Closed instantiation of the hypothesis-bearing clauses of
`parse_amount_spec`. -/
theorem parse_amount_spec_witness :
    parse_amount (some (litS "  ")) = none
    ∧ parse_amount (some ('(' :: litS "7" ++ [')'])) =
        (parse_amount (some (litS "7"))).map (fun q => -q) :=
  ⟨parse_amount_spec.2.1 (litS "  ") (by decide),
   parse_amount_spec.2.2.1 (litS "7") (by decide)⟩

/-! ## Lemmas: the vendor sectionizer -/

lemma chunkAux_nil (f : α → α → Bool) (prev : α) (accRev : List α) :
    chunkAux f prev accRev [] = [accRev.reverse] := rfl

lemma chunkAux_cons (f : α → α → Bool) (prev : α) (accRev : List α) (y : α) (ys : List α) :
    chunkAux f prev accRev (y :: ys) =
      if f prev y then chunkAux f y (y :: accRev) ys
      else accRev.reverse :: chunkAux f y [y] ys := rfl

lemma chunkBy_cons (f : α → α → Bool) (x : α) (xs : List α) :
    chunkBy f (x :: xs) = chunkAux f x [x] xs := rfl

lemma chunkAux_annotate :
    ∀ (rs : List (Str × Option ℚ)) (v : Str) (a : Option ℚ) (i : ℕ)
      (accRev : List (ℕ × Str × Option ℚ)),
      (chunkAux (fun p q => decide (p.1 = q.1)) (i, v, a) accRev
          (annotate (some v, i) rs)).map (List.map (fun p => p.2))
        = chunkAux (fun p q => decide (p.1 = q.1)) (v, a)
            (accRev.map (fun p => p.2)) rs := by
  intro rs
  induction rs with
  | nil =>
    intro v a i accRev
    rw [show annotate (some v, i) [] = [] from rfl, chunkAux_nil, chunkAux_nil]
    simp
  | cons wb rest ih =>
    intro v a i accRev
    obtain ⟨w, b⟩ := wb
    by_cases hvw : v = w
    · subst hvw
      have hann : annotate (some v, i) ((v, b) :: rest)
          = (i, v, b) :: annotate (some v, i) rest := by
        simp [annotate]
      rw [hann, chunkAux_cons, if_pos (by simp), ih v b i ((i, v, b) :: accRev),
        chunkAux_cons, if_pos (by simp)]
      rfl
    · have hann : annotate (some v, i) ((w, b) :: rest)
          = (i + 1, w, b) :: annotate (some w, i + 1) rest := by
        simp [annotate, hvw]
      rw [hann, chunkAux_cons, if_neg (by simp), List.map_cons,
        ih w b (i + 1) [(i + 1, w, b)], chunkAux_cons, if_neg (by simp [hvw])]
      simp

lemma chunkBy_annotate (l : List (Str × Option ℚ)) :
    (chunkBy (fun p q => decide (p.1 = q.1)) (annotate (none, 0) l)).map
        (List.map (fun p => p.2))
      = chunkBy (fun p q => decide (p.1 = q.1)) l := by
  cases l with
  | nil => rfl
  | cons va rest =>
    obtain ⟨v, a⟩ := va
    have hann : annotate (none, 0) ((v, a) :: rest)
        = (1, v, a) :: annotate (some v, 1) rest := by
      simp [annotate]
    rw [hann, chunkBy_cons, chunkAux_annotate rest v a 1 [(1, v, a)], chunkBy_cons]
    rfl

/-- (C4) The sectionizer: the section-id based pandas pipeline computes
exactly the spec's description (forward-fill, partition into maximal runs of
identical vendor names, take each run's last parseable amount, group-sum by
exact vendor-name string), and the claim's concrete example evaluates as
stated (a blank vendor cell continues the previous vendor's run, and the run
contributes its last amount, not the sum). -/
theorem sectionizer_spec :
    (∀ rows : List VendorRow, vendorGrouped rows = specSectionize rows)
    ∧ vendorGrouped
        [⟨some (litS "Acme"), some (litS "100")⟩, ⟨none, some (litS "50")⟩,
         ⟨some (litS "Beta"), some (litS "30")⟩]
      = [(litS "Acme", 50), (litS "Beta", 30)] := by
  constructor
  · intro rows
    unfold vendorGrouped specSectionize sectionTotals
    rw [← chunkBy_annotate (vendorWork rows), List.filterMap_map]
    rfl
  · with_unfolding_all rfl

/-! ## Lemmas: the supplier lookup dict -/

lemma alistFind_mem : ∀ (m : List (Str × ℕ)) (q : Str) (i : ℕ),
    alistFind m q = some i → (q, i) ∈ m := by
  intro m
  induction m with
  | nil => intro q i h; cases h
  | cons e rest ih =>
    intro q i h
    obtain ⟨k, v⟩ := e
    unfold alistFind at h
    by_cases hk : k = q
    · rw [if_pos hk] at h
      obtain rfl := Option.some_inj.mp h
      subst hk
      exact List.mem_cons_self _ _
    · rw [if_neg hk] at h
      exact List.mem_cons_of_mem _ (ih q i h)

lemma alistFind_eq_none_iff : ∀ (m : List (Str × ℕ)) (q : Str),
    alistFind m q = none ↔ q ∉ m.map (fun p => p.1) := by
  intro m
  induction m with
  | nil => simp [alistFind]
  | cons e rest ih =>
    intro q
    obtain ⟨k, v⟩ := e
    unfold alistFind
    by_cases hk : k = q
    · subst hk
      simp
    · rw [if_neg hk]
      simp only [List.map_cons, List.mem_cons]
      rw [ih q]
      constructor
      · intro h1 h2
        rcases h2 with h2 | h2
        · exact hk h2.symm
        · exact h1 h2
      · intro h1 h2
        exact h1 (Or.inr h2)

lemma alistFind_isSome_of_mem_keys (m : List (Str × ℕ)) (q : Str)
    (h : q ∈ m.map (fun p => p.1)) : ∃ i, alistFind m q = some i := by
  cases hf : alistFind m q with
  | none => exact absurd h ((alistFind_eq_none_iff m q).mp hf)
  | some i => exact ⟨i, rfl⟩

lemma keys_dictInsert : ∀ (m : List (Str × ℕ)) (k : Str) (v : ℕ),
    (dictInsert m k v).map (fun p => p.1)
      = if k ∈ m.map (fun p => p.1) then m.map (fun p => p.1)
        else m.map (fun p => p.1) ++ [k] := by
  intro m
  induction m with
  | nil => intro k v; simp [dictInsert]
  | cons e rest ih =>
    intro k v
    obtain ⟨k0, v0⟩ := e
    unfold dictInsert
    by_cases hk : k0 = k
    · subst hk
      rw [if_pos rfl]
      simp
    · rw [if_neg hk]
      simp only [List.map_cons]
      rw [ih k v]
      by_cases hmem : k ∈ rest.map (fun p => p.1)
      · rw [if_pos hmem, if_pos (by simp [hmem])]
      · have hnotin : ¬ k ∈ k0 :: rest.map (fun p => p.1) := by
          simp only [List.mem_cons]
          rintro (h | h)
          · exact hk h.symm
          · exact hmem h
        rw [if_neg hmem, if_neg hnotin]
        simp

lemma mem_dictInsert_nodup : ∀ (m : List (Str × ℕ)) (k : Str) (v : ℕ),
    (m.map (fun p => p.1)).Nodup →
    ∀ p ∈ dictInsert m k v, (p.1 = k ∧ p.2 = v) ∨ (p ∈ m ∧ p.1 ≠ k) := by
  intro m
  induction m with
  | nil =>
    intro k v _ p hp
    simp only [dictInsert, List.mem_singleton] at hp
    subst hp
    exact Or.inl ⟨rfl, rfl⟩
  | cons e rest ih =>
    intro k v hnd p hp
    obtain ⟨k0, v0⟩ := e
    simp only [List.map_cons, List.nodup_cons] at hnd
    obtain ⟨hk0, hndr⟩ := hnd
    unfold dictInsert at hp
    by_cases hk : k0 = k
    · rw [if_pos hk] at hp
      rcases List.mem_cons.mp hp with rfl | hp2
      · exact Or.inl ⟨hk, rfl⟩
      · refine Or.inr ⟨List.mem_cons_of_mem _ hp2, ?_⟩
        intro hpk
        refine hk0 ?_
        have hmm : p.1 ∈ rest.map (fun p => p.1) := List.mem_map_of_mem (fun p => p.1) hp2
        rwa [hpk, ← hk] at hmm
    · rw [if_neg hk] at hp
      rcases List.mem_cons.mp hp with rfl | hp2
      · exact Or.inr ⟨List.mem_cons_self _ _, hk⟩
      · rcases ih k v hndr p hp2 with h | ⟨h1, h2⟩
        · exact Or.inl h
        · exact Or.inr ⟨List.mem_cons_of_mem _ h1, h2⟩

lemma buildMapAux_entries (nsAll : List Str) :
    ∀ (ns : List Str) (i0 : ℕ) (m : List (Str × ℕ)),
      nsAll.drop i0 = ns →
      (m.map (fun p => p.1)).Nodup →
      (∀ p ∈ m, p.2 < i0 ∧ nsAll.getD p.2 [] = p.1 ∧
        ∀ j, p.2 < j → j < i0 → nsAll.getD j [] ≠ p.1) →
      ∀ p ∈ buildMapAux i0 ns m,
        p.2 < i0 + ns.length ∧ nsAll.getD p.2 [] = p.1 ∧
          ∀ j, p.2 < j → j < i0 + ns.length → nsAll.getD j [] ≠ p.1 := by
  intro ns
  induction ns with
  | nil =>
    intro i0 m _ _ hm p hp
    simpa using hm p hp
  | cons n rest ih =>
    intro i0 m hdrop hnd hm p hp
    have hlt : i0 < nsAll.length := by
      by_contra hge
      rw [List.drop_eq_nil_of_le (by omega)] at hdrop
      exact absurd hdrop (by simp)
    have hget : nsAll[i0]? = some n := by
      have h0 : (nsAll.drop i0)[0]? = some n := by rw [hdrop]; simp
      rwa [List.getElem?_drop, Nat.add_zero] at h0
    have hgetD : nsAll.getD i0 [] = n := by
      rw [List.getD_eq_getElem?_getD, hget]
      rfl
    have hdrop2 : nsAll.drop (i0 + 1) = rest := by
      have h2 := List.drop_drop 1 i0 nsAll
      rw [hdrop] at h2
      simpa [Nat.add_comm] using h2.symm
    have hnd2 : ((dictInsert m n i0).map (fun p => p.1)).Nodup := by
      rw [keys_dictInsert]
      by_cases hmem : n ∈ m.map (fun p => p.1)
      · rwa [if_pos hmem]
      · rw [if_neg hmem]
        refine List.Nodup.append hnd (by simp) ?_
        simpa using hmem
    have hm2 : ∀ p ∈ dictInsert m n i0, p.2 < i0 + 1 ∧ nsAll.getD p.2 [] = p.1 ∧
        ∀ j, p.2 < j → j < i0 + 1 → nsAll.getD j [] ≠ p.1 := by
      intro p hp2
      rcases mem_dictInsert_nodup m n i0 hnd p hp2 with ⟨h1, h2⟩ | ⟨h1, h2⟩
      · refine ⟨by omega, by rw [h2, hgetD, h1], ?_⟩
        intro j hj1 hj2
        omega
      · obtain ⟨ha, hb, hc⟩ := hm p h1
        refine ⟨by omega, hb, ?_⟩
        intro j hj1 hj2
        by_cases hji : j = i0
        · subst hji
          rw [hgetD]
          exact fun heq => h2 heq.symm
        · exact hc j hj1 (by omega)
    have hstep : p ∈ buildMapAux (i0 + 1) rest (dictInsert m n i0) := hp
    have hres := ih (i0 + 1) (dictInsert m n i0) hdrop2 hnd2 hm2 p hstep
    refine ⟨?_, hres.2.1, ?_⟩
    · have := hres.1
      simp only [List.length_cons]
      omega
    · intro j hj1 hj2
      refine hres.2.2 j hj1 ?_
      simp only [List.length_cons] at hj2
      omega

lemma supplier_index_map_entries (ns : List Str) :
    ∀ p ∈ supplier_index_map ns, p.2 < ns.length ∧ ns.getD p.2 [] = p.1 ∧
      ∀ j, p.2 < j → j < ns.length → ns.getD j [] ≠ p.1 := by
  intro p hp
  have h := buildMapAux_entries ns ns 0 [] (by simp) (by simp) (by simp) p hp
  simpa using h

lemma keys_buildMapAux : ∀ (ns : List Str) (i0 : ℕ) (m : List (Str × ℕ)),
    (buildMapAux i0 ns m).map (fun p => p.1)
      = ns.foldl (fun acc n => if n ∈ acc then acc else acc ++ [n])
          (m.map (fun p => p.1)) := by
  intro ns
  induction ns with
  | nil => intro i0 m; rfl
  | cons n rest ih =>
    intro i0 m
    show (buildMapAux (i0 + 1) rest (dictInsert m n i0)).map _ = _
    rw [ih, keys_dictInsert]
    rfl

lemma find?_append_some {p : Str → Bool} :
    ∀ (l1 l2 : List Str) (y : Str), l1.find? p = some y → (l1 ++ l2).find? p = some y := by
  intro l1
  induction l1 with
  | nil => intro l2 y h; cases h
  | cons a l ih =>
    intro l2 y h
    by_cases hpa : p a = true
    · rw [List.find?_cons_of_pos _ hpa] at h
      rw [List.cons_append, List.find?_cons_of_pos _ hpa]
      exact h
    · rw [List.find?_cons_of_neg _ (by simpa using hpa)] at h
      rw [List.cons_append, List.find?_cons_of_neg _ (by simpa using hpa)]
      exact ih l2 y h

lemma find?_append_none {p : Str → Bool} :
    ∀ (l1 l2 : List Str), l1.find? p = none → (l1 ++ l2).find? p = l2.find? p := by
  intro l1
  induction l1 with
  | nil => intro l2 _; rfl
  | cons a l ih =>
    intro l2 h
    by_cases hpa : p a = true
    · rw [List.find?_cons_of_pos _ hpa] at h
      cases h
    · rw [List.find?_cons_of_neg _ (by simpa using hpa)] at h
      rw [List.cons_append, List.find?_cons_of_neg _ (by simpa using hpa)]
      exact ih l2 h

lemma find?_dedupFold_some {p : Str → Bool} :
    ∀ (ns acc : List Str) (y : Str), acc.find? p = some y →
      (ns.foldl (fun a n => if n ∈ a then a else a ++ [n]) acc).find? p = some y := by
  intro ns
  induction ns with
  | nil => intro acc y h; exact h
  | cons n rest ih =>
    intro acc y h
    show (rest.foldl _ (if n ∈ acc then acc else acc ++ [n])).find? p = some y
    by_cases hmem : n ∈ acc
    · rw [if_pos hmem]
      exact ih acc y h
    · rw [if_neg hmem]
      exact ih (acc ++ [n]) y (find?_append_some acc [n] y h)

lemma find?_dedupFold_none {p : Str → Bool} :
    ∀ (ns acc : List Str), acc.find? p = none →
      (ns.foldl (fun a n => if n ∈ a then a else a ++ [n]) acc).find? p = ns.find? p := by
  intro ns
  induction ns with
  | nil => intro acc h; exact h
  | cons n rest ih =>
    intro acc h
    show (rest.foldl _ (if n ∈ acc then acc else acc ++ [n])).find? p = _
    by_cases hmem : n ∈ acc
    · rw [if_pos hmem]
      have hpn : ¬ p n = true := (List.find?_eq_none.mp h) n hmem
      rw [List.find?_cons_of_neg _ hpn]
      exact ih acc h
    · rw [if_neg hmem]
      by_cases hpn : p n = true
      · have hsome : (acc ++ [n]).find? p = some n := by
          rw [find?_append_none acc [n] h, List.find?_cons_of_pos _ hpn]
        rw [find?_dedupFold_some rest _ n hsome, List.find?_cons_of_pos _ hpn]
      · have hnone : (acc ++ [n]).find? p = none := by
          rw [find?_append_none acc [n] h, List.find?_cons_of_neg _ hpn]
          rfl
        rw [ih (acc ++ [n]) hnone, List.find?_cons_of_neg _ hpn]

lemma mem_dedupFold :
    ∀ (ns acc : List Str) (q : Str),
      q ∈ ns.foldl (fun a n => if n ∈ a then a else a ++ [n]) acc ↔ q ∈ acc ∨ q ∈ ns := by
  intro ns
  induction ns with
  | nil => intro acc q; simp
  | cons n rest ih =>
    intro acc q
    show q ∈ rest.foldl _ (if n ∈ acc then acc else acc ++ [n]) ↔ _
    by_cases hmem : n ∈ acc
    · rw [if_pos hmem, ih acc q]
      constructor
      · rintro (h | h)
        · exact Or.inl h
        · exact Or.inr (List.mem_cons_of_mem _ h)
      · rintro (h | h)
        · exact Or.inl h
        · rcases List.mem_cons.mp h with rfl | h2
          · exact Or.inl hmem
          · exact Or.inr h2
    · rw [if_neg hmem, ih (acc ++ [n]) q]
      simp only [List.mem_append, List.mem_cons, List.not_mem_nil, or_false]
      rw [or_assoc]

lemma mem_keys_supplier_index_map (ns : List Str) (q : Str) :
    q ∈ (supplier_index_map ns).map (fun p => p.1) ↔ q ∈ ns := by
  unfold supplier_index_map
  rw [keys_buildMapAux]
  simpa using mem_dedupFold ns [] q

/-! ## Lemmas: the substring tier and the fuzzy tier -/

lemma findSubstringIdx_none_iff : ∀ (m : List (Str × ℕ)) (v : Str),
    findSubstringIdx m v = none ↔ (m.map (fun p => p.1)).find? (substrCond v) = none := by
  intro m v
  induction m with
  | nil => simp [findSubstringIdx]
  | cons e rest ih =>
    obtain ⟨k0, i0⟩ := e
    unfold findSubstringIdx
    by_cases hc : substrCond v k0 = true
    · rw [if_pos hc]
      simp [List.find?_cons_of_pos _ hc]
    · rw [if_neg hc, List.map_cons, List.find?_cons_of_neg _ hc]
      exact ih

lemma findSubstringIdx_some_spec : ∀ (m : List (Str × ℕ)) (v : Str) (i : ℕ),
    findSubstringIdx m v = some i →
      ∃ k, (k, i) ∈ m ∧ (m.map (fun p => p.1)).find? (substrCond v) = some k := by
  intro m v
  induction m with
  | nil => intro i h; cases h
  | cons e rest ih =>
    intro i h
    obtain ⟨k0, i0⟩ := e
    unfold findSubstringIdx at h
    by_cases hc : substrCond v k0 = true
    · rw [if_pos hc] at h
      obtain rfl := Option.some_inj.mp h
      exact ⟨k0, List.mem_cons_self _ _, by rw [List.map_cons, List.find?_cons_of_pos _ hc]⟩
    · rw [if_neg hc] at h
      obtain ⟨k, hk1, hk2⟩ := ih i h
      refine ⟨k, List.mem_cons_of_mem _ hk1, ?_⟩
      rw [List.map_cons, List.find?_cons_of_neg _ hc]
      exact hk2

lemma extractOneAux_nil (q : Str) (best : Option (Str × ℚ)) : extractOneAux q best [] = best :=
  rfl

lemma extractOneAux_cons_none (q c : Str) (cs : List Str) :
    extractOneAux q none (c :: cs)
      = if SIMILARITY_THRESHOLD ≤ tokenSortScore q c then
          extractOneAux q (some (c, tokenSortScore q c)) cs
        else extractOneAux q none cs := by
  show (if (decide (SIMILARITY_THRESHOLD ≤ tokenSortScore q c) && true) = true then _ else _) = _
  by_cases h : SIMILARITY_THRESHOLD ≤ tokenSortScore q c
  · rw [if_pos (by simp [h]), if_pos h]
  · rw [if_neg (by simp [h]), if_neg h]

lemma extractOneAux_cons_some (q b c : Str) (bs : ℚ) (cs : List Str) :
    extractOneAux q (some (b, bs)) (c :: cs)
      = if SIMILARITY_THRESHOLD ≤ tokenSortScore q c ∧ bs < tokenSortScore q c then
          extractOneAux q (some (c, tokenSortScore q c)) cs
        else extractOneAux q (some (b, bs)) cs := by
  show (if (decide (SIMILARITY_THRESHOLD ≤ tokenSortScore q c)
      && decide (bs < tokenSortScore q c)) = true then _ else _) = _
  by_cases h1 : SIMILARITY_THRESHOLD ≤ tokenSortScore q c
  · by_cases h2 : bs < tokenSortScore q c
    · rw [if_pos (by simp [h1, h2]), if_pos ⟨h1, h2⟩]
    · rw [if_neg (by simp [h2]), if_neg (by intro h; exact h2 h.2)]
  · rw [if_neg (by simp [h1]), if_neg (by intro h; exact h1 h.1)]

lemma extractOneAux_some_ne_none (q : Str) :
    ∀ (cs : List Str) (b : Str × ℚ), extractOneAux q (some b) cs ≠ none := by
  intro cs
  induction cs with
  | nil => intro b h; cases h
  | cons c cs ih =>
    intro b
    obtain ⟨b1, b2⟩ := b
    rw [extractOneAux_cons_some]
    by_cases h : SIMILARITY_THRESHOLD ≤ tokenSortScore q c ∧ b2 < tokenSortScore q c
    · rw [if_pos h]; exact ih _
    · rw [if_neg h]; exact ih _

lemma extractOneAux_none_iff (q : Str) :
    ∀ cs : List Str, extractOneAux q none cs = none ↔
      ∀ c ∈ cs, tokenSortScore q c < SIMILARITY_THRESHOLD := by
  intro cs
  induction cs with
  | nil => simp [extractOneAux_nil]
  | cons c cs ih =>
    rw [extractOneAux_cons_none]
    by_cases h : SIMILARITY_THRESHOLD ≤ tokenSortScore q c
    · rw [if_pos h]
      constructor
      · intro h2
        exact absurd h2 (extractOneAux_some_ne_none q cs _)
      · intro hall
        exact absurd h (not_le.mpr (hall c (List.mem_cons_self _ _)))
    · rw [if_neg h, ih]
      constructor
      · intro hall d hd
        rcases List.mem_cons.mp hd with rfl | hd2
        · exact not_le.mp h
        · exact hall d hd2
      · intro hall d hd
        exact hall d (List.mem_cons_of_mem _ hd)

lemma extractOneAux_some_spec (q : Str) :
    ∀ (cs : List Str) (b0 : Str) (s0 : ℚ) (c : Str) (s : ℚ),
      SIMILARITY_THRESHOLD ≤ s0 → s0 = tokenSortScore q b0 →
      extractOneAux q (some (b0, s0)) cs = some (c, s) →
        s = tokenSortScore q c ∧ SIMILARITY_THRESHOLD ≤ s ∧
        ((c = b0 ∧ s = s0 ∧ ∀ d ∈ cs, tokenSortScore q d ≤ s0)
         ∨ (s0 < s ∧ (∀ d ∈ cs, tokenSortScore q d ≤ s) ∧
            ∃ i, i < cs.length ∧ cs.getD i [] = c ∧
              ∀ j, j < i → tokenSortScore q (cs.getD j []) < s)) := by
  intro cs
  induction cs with
  | nil =>
    intro b0 s0 c s h85 hs0 h
    rw [extractOneAux_nil] at h
    obtain ⟨rfl, rfl⟩ : b0 = c ∧ s0 = s := by
      have := Option.some_inj.mp h
      exact ⟨congrArg Prod.fst this, congrArg Prod.snd this⟩
    exact ⟨hs0, h85, Or.inl ⟨rfl, rfl, by simp⟩⟩
  | cons d rest ih =>
    intro b0 s0 c s h85 hs0 h
    rw [extractOneAux_cons_some] at h
    by_cases hrep : SIMILARITY_THRESHOLD ≤ tokenSortScore q d ∧ s0 < tokenSortScore q d
    · rw [if_pos hrep] at h
      obtain ⟨h1, h2, h3⟩ := ih d (tokenSortScore q d) c s hrep.1 rfl h
      refine ⟨h1, h2, Or.inr ?_⟩
      rcases h3 with ⟨hcd, hsd, hall⟩ | ⟨hlt, hall, i, hi, hgi, hfirst⟩
      · refine ⟨by rw [hsd]; exact hrep.2, ?_, 0, by simp, by simp [hcd], ?_⟩
        · intro e he
          rcases List.mem_cons.mp he with rfl | he2
          · rw [hsd]
          · exact le_of_le_of_eq (hall e he2) hsd.symm
        · intro j hj
          omega
      · refine ⟨lt_trans hrep.2 hlt, ?_, i + 1, by simp; omega, ?_, ?_⟩
        · intro e he
          rcases List.mem_cons.mp he with rfl | he2
          · exact le_of_lt hlt
          · exact hall e he2
        · rw [List.getD_cons_succ]
          exact hgi
        · intro j hj
          cases j with
          | zero =>
            rw [List.getD_cons_zero]
            exact hlt
          | succ j2 =>
            rw [List.getD_cons_succ]
            exact hfirst j2 (by omega)
    · rw [if_neg hrep] at h
      obtain ⟨h1, h2, h3⟩ := ih b0 s0 c s h85 hs0 h
      have hdle : tokenSortScore q d ≤ s0 := by
        rcases not_and_or.mp hrep with h' | h'
        · exact le_of_lt (lt_of_lt_of_le (not_le.mp h') h85)
        · exact not_lt.mp h'
      refine ⟨h1, h2, ?_⟩
      rcases h3 with ⟨hcb, hss, hall⟩ | ⟨hlt, hall, i, hi, hgi, hfirst⟩
      · refine Or.inl ⟨hcb, hss, ?_⟩
        intro e he
        rcases List.mem_cons.mp he with rfl | he2
        · exact hdle
        · exact hall e he2
      · refine Or.inr ⟨hlt, ?_, i + 1, by simp; omega, ?_, ?_⟩
        · intro e he
          rcases List.mem_cons.mp he with rfl | he2
          · exact le_of_lt (lt_of_le_of_lt hdle hlt)
          · exact hall e he2
        · rw [List.getD_cons_succ]
          exact hgi
        · intro j hj
          cases j with
          | zero =>
            rw [List.getD_cons_zero]
            exact lt_of_le_of_lt hdle hlt
          | succ j2 =>
            rw [List.getD_cons_succ]
            exact hfirst j2 (by omega)

lemma extractOneAux_start_spec (q : Str) :
    ∀ (cs : List Str) (c : Str) (s : ℚ),
      extractOneAux q none cs = some (c, s) →
        s = tokenSortScore q c ∧ SIMILARITY_THRESHOLD ≤ s ∧
        (∀ d ∈ cs, tokenSortScore q d ≤ s) ∧
        ∃ i, i < cs.length ∧ cs.getD i [] = c ∧
          ∀ j, j < i → tokenSortScore q (cs.getD j []) < s := by
  intro cs
  induction cs with
  | nil => intro c s h; cases h
  | cons d rest ih =>
    intro c s h
    rw [extractOneAux_cons_none] at h
    by_cases hd : SIMILARITY_THRESHOLD ≤ tokenSortScore q d
    · rw [if_pos hd] at h
      obtain ⟨h1, h2, h3⟩ := extractOneAux_some_spec q rest d _ c s hd rfl h
      rcases h3 with ⟨hcd, hsd, hall⟩ | ⟨hlt, hall, i, hi, hgi, hfirst⟩
      · refine ⟨h1, h2, ?_, 0, by simp, by simp [hcd], by intro j hj; omega⟩
        intro e he
        rcases List.mem_cons.mp he with rfl | he2
        · rw [hsd]
        · exact le_of_le_of_eq (hall e he2) hsd.symm
      · refine ⟨h1, h2, ?_, i + 1, by simp; omega, ?_, ?_⟩
        · intro e he
          rcases List.mem_cons.mp he with rfl | he2
          · exact le_of_lt hlt
          · exact hall e he2
        · rw [List.getD_cons_succ]
          exact hgi
        · intro j hj
          cases j with
          | zero =>
            rw [List.getD_cons_zero]
            exact hlt
          | succ j2 =>
            rw [List.getD_cons_succ]
            exact hfirst j2 (by omega)
    · rw [if_neg hd] at h
      obtain ⟨h1, h2, h3, i, hi, hgi, hfirst⟩ := ih c s h
      refine ⟨h1, h2, ?_, i + 1, by simp; omega, ?_, ?_⟩
      · intro e he
        rcases List.mem_cons.mp he with rfl | he2
        · exact le_of_lt (lt_of_lt_of_le (not_le.mp hd) h2)
        · exact h3 e he2
      · rw [List.getD_cons_succ]
        exact hgi
      · intro j hj
        cases j with
        | zero =>
          rw [List.getD_cons_zero]
          exact lt_of_lt_of_le (not_le.mp hd) h2
        | succ j2 =>
          rw [List.getD_cons_succ]
          exact hfirst j2 (by omega)

lemma find?_eq_of_index (p : Str → Bool) :
    ∀ (cs : List Str) (i : ℕ), i < cs.length → p (cs.getD i []) = true →
      (∀ j, j < i → p (cs.getD j []) = false) → cs.find? p = some (cs.getD i []) := by
  intro cs
  induction cs with
  | nil => intro i hi; simp at hi
  | cons d rest ih =>
    intro i hi hp hfirst
    cases i with
    | zero =>
      rw [List.getD_cons_zero] at hp ⊢
      rw [List.find?_cons_of_pos _ hp]
    | succ i2 =>
      have hd : ¬ p d = true := by
        have h0 := hfirst 0 (Nat.succ_pos _)
        rw [List.getD_cons_zero] at h0
        simp [h0]
      rw [List.getD_cons_succ, List.find?_cons_of_neg _ hd]
      refine ih i2 (by simpa using hi) (by rwa [List.getD_cons_succ] at hp) ?_
      intro j hj
      have hj2 := hfirst (j + 1) (by omega)
      rwa [List.getD_cons_succ] at hj2

lemma getD_mem_of_lt (l : List Str) (n : ℕ) (h : n < l.length) : l.getD n [] ∈ l := by
  rw [List.getD_eq_getElem?_getD, List.getElem?_eq_getElem h]
  exact List.getElem_mem h

lemma keys_find?_eq (ns : List Str) (p : Str → Bool) :
    ((supplier_index_map ns).map (fun q => q.1)).find? p = ns.find? p := by
  unfold supplier_index_map
  rw [keys_buildMapAux]
  exact find?_dedupFold_none ns [] rfl

lemma resolveVendor_exact_eq (smap : List (Str × ℕ)) (nv : Str) (idx : ℕ)
    (h : alistFind smap nv = some idx) :
    resolveVendor smap nv = Resolution.matched idx (litS "exact") 100 := by
  unfold resolveVendor
  rw [h]

lemma resolveVendor_substring_eq (smap : List (Str × ℕ)) (nv : Str) (idx : ℕ)
    (h1 : alistFind smap nv = none) (h2 : findSubstringIdx smap nv = some idx) :
    resolveVendor smap nv = Resolution.matched idx (litS "substring") 100 := by
  unfold resolveVendor
  rw [h1, h2]

lemma resolveVendor_fuzzy_eq (smap : List (Str × ℕ)) (nv : Str)
    (h1 : alistFind smap nv = none) (h2 : findSubstringIdx smap nv = none) :
    resolveVendor smap nv =
      match (if (smap.map (fun p => p.1)).isEmpty then none
             else extractOneAux nv none (smap.map (fun p => p.1))) with
      | some (mn, score) =>
        (match alistFind smap mn with
         | some idx => Resolution.matched idx (litS "fuzzy") score
         | none => Resolution.unmatched)
      | none => Resolution.unmatched := by
  unfold resolveVendor
  rw [h1, h2]

lemma resolveVendor_fuzzy_some_eq (smap : List (Str × ℕ)) (nv mn : Str) (sc : ℚ)
    (h1 : alistFind smap nv = none) (h2 : findSubstringIdx smap nv = none)
    (h3 : ¬ (smap.map (fun p => p.1)).isEmpty = true)
    (h4 : extractOneAux nv none (smap.map (fun p => p.1)) = some (mn, sc)) :
    resolveVendor smap nv =
      match alistFind smap mn with
      | some idx => Resolution.matched idx (litS "fuzzy") sc
      | none => Resolution.unmatched := by
  rw [resolveVendor_fuzzy_eq smap nv h1 h2, if_neg h3, h4]

lemma resolveVendor_empty_eq (smap : List (Str × ℕ)) (nv : Str)
    (h1 : alistFind smap nv = none) (h2 : findSubstringIdx smap nv = none)
    (h3 : (smap.map (fun p => p.1)).isEmpty = true) :
    resolveVendor smap nv = Resolution.unmatched := by
  rw [resolveVendor_fuzzy_eq smap nv h1 h2, if_pos h3]

lemma resolveVendor_cand_none_eq (smap : List (Str × ℕ)) (nv : Str)
    (h1 : alistFind smap nv = none) (h2 : findSubstringIdx smap nv = none)
    (h3 : ¬ (smap.map (fun p => p.1)).isEmpty = true)
    (h4 : extractOneAux nv none (smap.map (fun p => p.1)) = none) :
    resolveVendor smap nv = Resolution.unmatched := by
  rw [resolveVendor_fuzzy_eq smap nv h1 h2, if_neg h3, h4]

/-- The three-tier resolution, characterized over an arbitrary list `ns` of
normalized supplier names (in ledger order). -/
lemma resolveVendor_spec (ns : List Str) (nv : Str) :
    (nv ∈ ns →
      ∃ idx, resolveVendor (supplier_index_map ns) nv
          = Resolution.matched idx (litS "exact") 100
        ∧ idx < ns.length ∧ ns.getD idx [] = nv)
    ∧ (nv ∉ ns →
      ∀ k : Str, ns.find? (substrCond nv) = some k →
        ∃ idx, resolveVendor (supplier_index_map ns) nv
            = Resolution.matched idx (litS "substring") 100
          ∧ idx < ns.length ∧ ns.getD idx [] = k)
    ∧ (nv ∉ ns →
      (∀ d ∈ ns, substrCond nv d = false) →
      ∀ idx mt s, resolveVendor (supplier_index_map ns) nv = Resolution.matched idx mt s →
        mt = litS "fuzzy"
        ∧ SIMILARITY_THRESHOLD ≤ s
        ∧ idx < ns.length
        ∧ s = tokenSortScore nv (ns.getD idx [])
        ∧ (∀ d ∈ ns, tokenSortScore nv d ≤ s)
        ∧ ns.find? (fun d => decide (tokenSortScore nv d = s)) = some (ns.getD idx []))
    ∧ (nv ∉ ns →
      (∀ d ∈ ns, substrCond nv d = false) →
      (∃ d ∈ ns, SIMILARITY_THRESHOLD ≤ tokenSortScore nv d) →
      ∃ idx s, resolveVendor (supplier_index_map ns) nv
        = Resolution.matched idx (litS "fuzzy") s)
    ∧ (nv ∉ ns →
      (∀ d ∈ ns, substrCond nv d = false) →
      (∀ d ∈ ns, tokenSortScore nv d < SIMILARITY_THRESHOLD) →
      resolveVendor (supplier_index_map ns) nv = Resolution.unmatched) := by
  refine ⟨?_, ?_, ?_, ?_, ?_⟩
  · -- exact tier
    intro hmem
    obtain ⟨idx, hfind⟩ := alistFind_isSome_of_mem_keys (supplier_index_map ns) nv
      ((mem_keys_supplier_index_map ns nv).mpr hmem)
    have hent := supplier_index_map_entries ns (nv, idx) (alistFind_mem _ _ _ hfind)
    exact ⟨idx, resolveVendor_exact_eq _ _ idx hfind, hent.1, hent.2.1⟩
  · -- substring tier
    intro hnot k hfindk
    have hnone : alistFind (supplier_index_map ns) nv = none :=
      (alistFind_eq_none_iff _ _).mpr
        (fun hmem => hnot ((mem_keys_supplier_index_map ns nv).mp hmem))
    have hkeys : ((supplier_index_map ns).map (fun q => q.1)).find? (substrCond nv)
        = some k := by
      rw [keys_find?_eq]
      exact hfindk
    cases hfs : findSubstringIdx (supplier_index_map ns) nv with
    | none =>
      rw [(findSubstringIdx_none_iff _ _).mp hfs] at hkeys
      cases hkeys
    | some i =>
      obtain ⟨k2, hk2mem, hk2find⟩ := findSubstringIdx_some_spec (supplier_index_map ns) nv i hfs
      rw [hk2find] at hkeys
      obtain rfl := Option.some_inj.mp hkeys
      have hent := supplier_index_map_entries ns (k2, i) hk2mem
      exact ⟨i, resolveVendor_substring_eq _ _ i hnone hfs, hent.1, hent.2.1⟩
  · -- fuzzy tier, accepted
    intro hnot hsuball idx mt s hres
    have hnone : alistFind (supplier_index_map ns) nv = none :=
      (alistFind_eq_none_iff _ _).mpr
        (fun hmem => hnot ((mem_keys_supplier_index_map ns nv).mp hmem))
    have hfsnone : findSubstringIdx (supplier_index_map ns) nv = none := by
      rw [findSubstringIdx_none_iff]
      refine List.find?_eq_none.mpr ?_
      intro x hx
      rw [hsuball x ((mem_keys_supplier_index_map ns x).mp hx)]
      simp
    by_cases hemp : ((supplier_index_map ns).map (fun p => p.1)).isEmpty = true
    · rw [resolveVendor_empty_eq _ _ hnone hfsnone hemp] at hres
      exact Resolution.noConfusion hres
    · cases hcand : extractOneAux nv none ((supplier_index_map ns).map (fun p => p.1)) with
      | none =>
        rw [resolveVendor_cand_none_eq _ _ hnone hfsnone hemp hcand] at hres
        exact Resolution.noConfusion hres
      | some p =>
        obtain ⟨mn, sc⟩ := p
        rw [resolveVendor_fuzzy_some_eq _ _ mn sc hnone hfsnone hemp hcand] at hres
        obtain ⟨h1, h2, h3, i, hi, hgi, hfirst⟩ := extractOneAux_start_spec nv _ mn sc hcand
        have hmnkeys : mn ∈ (supplier_index_map ns).map (fun p => p.1) := by
          rw [← hgi]
          exact getD_mem_of_lt _ i hi
        obtain ⟨j, hj⟩ := alistFind_isSome_of_mem_keys (supplier_index_map ns) mn hmnkeys
        rw [hj] at hres
        injection hres with e1 e2 e3
        rw [← e1, ← e2, ← e3]
        have hent := supplier_index_map_entries ns (mn, j) (alistFind_mem _ _ _ hj)
        refine ⟨rfl, h2, hent.1, ?_, ?_, ?_⟩
        · rw [hent.2.1]
          exact h1
        · intro d hd
          exact h3 d ((mem_keys_supplier_index_map ns d).mpr hd)
        · rw [hent.2.1]
          have hkf : ((supplier_index_map ns).map (fun p => p.1)).find?
              (fun d => decide (tokenSortScore nv d = sc)) = some mn := by
            have hfi := find?_eq_of_index (fun d => decide (tokenSortScore nv d = sc))
              ((supplier_index_map ns).map (fun p => p.1)) i hi ?_ ?_
            · rwa [hgi] at hfi
            · rw [hgi]
              simp [h1]
            · intro j2 hj2
              have hlt := hfirst j2 hj2
              exact decide_eq_false (ne_of_lt hlt)
          rw [← keys_find?_eq ns (fun d => decide (tokenSortScore nv d = sc))]
          exact hkf
  · -- fuzzy tier, acceptance exists
    intro hnot hsuball hex
    obtain ⟨d, hd, hd85⟩ := hex
    have hnone : alistFind (supplier_index_map ns) nv = none :=
      (alistFind_eq_none_iff _ _).mpr
        (fun hmem => hnot ((mem_keys_supplier_index_map ns nv).mp hmem))
    have hfsnone : findSubstringIdx (supplier_index_map ns) nv = none := by
      rw [findSubstringIdx_none_iff]
      refine List.find?_eq_none.mpr ?_
      intro x hx
      rw [hsuball x ((mem_keys_supplier_index_map ns x).mp hx)]
      simp
    have hdk : d ∈ (supplier_index_map ns).map (fun p => p.1) :=
      (mem_keys_supplier_index_map ns d).mpr hd
    have hemp : ¬ ((supplier_index_map ns).map (fun p => p.1)).isEmpty = true := by
      intro h
      rw [List.isEmpty_iff] at h
      rw [h] at hdk
      cases hdk
    cases hcand : extractOneAux nv none ((supplier_index_map ns).map (fun p => p.1)) with
    | none =>
      have hlow := (extractOneAux_none_iff nv _).mp hcand d hdk
      exact absurd hd85 (not_le.mpr hlow)
    | some p =>
      obtain ⟨mn, sc⟩ := p
      obtain ⟨h1, h2, h3, i, hi, hgi, hfirst⟩ := extractOneAux_start_spec nv _ mn sc hcand
      have hmnkeys : mn ∈ (supplier_index_map ns).map (fun p => p.1) := by
        rw [← hgi]
        exact getD_mem_of_lt _ i hi
      obtain ⟨j, hj⟩ := alistFind_isSome_of_mem_keys (supplier_index_map ns) mn hmnkeys
      refine ⟨j, sc, ?_⟩
      rw [resolveVendor_fuzzy_some_eq _ _ mn sc hnone hfsnone hemp hcand, hj]
  · -- all tiers fail
    intro hnot hsuball hlow
    have hnone : alistFind (supplier_index_map ns) nv = none :=
      (alistFind_eq_none_iff _ _).mpr
        (fun hmem => hnot ((mem_keys_supplier_index_map ns nv).mp hmem))
    have hfsnone : findSubstringIdx (supplier_index_map ns) nv = none := by
      rw [findSubstringIdx_none_iff]
      refine List.find?_eq_none.mpr ?_
      intro x hx
      rw [hsuball x ((mem_keys_supplier_index_map ns x).mp hx)]
      simp
    by_cases hemp : ((supplier_index_map ns).map (fun p => p.1)).isEmpty = true
    · exact resolveVendor_empty_eq _ _ hnone hfsnone hemp
    · have hcnone : extractOneAux nv none ((supplier_index_map ns).map (fun p => p.1))
          = none :=
        (extractOneAux_none_iff nv _).mpr
          (fun c hc => hlow c ((mem_keys_supplier_index_map ns c).mp hc))
      exact resolveVendor_cand_none_eq _ _ hnone hfsnone hemp hcnone

/-- (C1) Per VendorTotal, resolution runs in strict priority order with first
match winning.  Tier 1 (exact): the normalized vendor name equals a normalized
supplier name — match type `exact`, score 100.  Tier 2 (substring): only when
exact fails; the matched name is the first normalized supplier name in ledger
order related to the (non-empty) normalized vendor name by containment —
match type `substring`, score 100.  Tier 3 (fuzzy): only when both fail; the
score is the token-sort similarity, maximal over every normalized supplier
name, accepted only when ≥ 85 (`SIMILARITY_THRESHOLD`), and the winner is the
first name attaining the maximum.  When no tier succeeds the vendor is
unmatched. -/
theorem matcher_three_tier (suppliers : List Str) (v : Str) :
    (normalize_name v ∈ supplier_norm suppliers →
      ∃ idx, resolveVendor (supplier_index_map (supplier_norm suppliers)) (normalize_name v)
          = Resolution.matched idx (litS "exact") 100
        ∧ idx < suppliers.length
        ∧ (supplier_norm suppliers).getD idx [] = normalize_name v)
    ∧ (normalize_name v ∉ supplier_norm suppliers →
      ∀ k : Str, (supplier_norm suppliers).find? (substrCond (normalize_name v)) = some k →
        ∃ idx, resolveVendor (supplier_index_map (supplier_norm suppliers)) (normalize_name v)
            = Resolution.matched idx (litS "substring") 100
          ∧ idx < suppliers.length
          ∧ (supplier_norm suppliers).getD idx [] = k)
    ∧ (normalize_name v ∉ supplier_norm suppliers →
      (∀ d ∈ supplier_norm suppliers, substrCond (normalize_name v) d = false) →
      ∀ idx mt s,
        resolveVendor (supplier_index_map (supplier_norm suppliers)) (normalize_name v)
          = Resolution.matched idx mt s →
        mt = litS "fuzzy"
        ∧ SIMILARITY_THRESHOLD ≤ s
        ∧ idx < suppliers.length
        ∧ s = tokenSortScore (normalize_name v) ((supplier_norm suppliers).getD idx [])
        ∧ (∀ d ∈ supplier_norm suppliers, tokenSortScore (normalize_name v) d ≤ s)
        ∧ (supplier_norm suppliers).find?
            (fun d => decide (tokenSortScore (normalize_name v) d = s))
            = some ((supplier_norm suppliers).getD idx []))
    ∧ (normalize_name v ∉ supplier_norm suppliers →
      (∀ d ∈ supplier_norm suppliers, substrCond (normalize_name v) d = false) →
      (∃ d ∈ supplier_norm suppliers,
        SIMILARITY_THRESHOLD ≤ tokenSortScore (normalize_name v) d) →
      ∃ idx s, resolveVendor (supplier_index_map (supplier_norm suppliers)) (normalize_name v)
        = Resolution.matched idx (litS "fuzzy") s)
    ∧ (normalize_name v ∉ supplier_norm suppliers →
      (∀ d ∈ supplier_norm suppliers, substrCond (normalize_name v) d = false) →
      (∀ d ∈ supplier_norm suppliers,
        tokenSortScore (normalize_name v) d < SIMILARITY_THRESHOLD) →
      resolveVendor (supplier_index_map (supplier_norm suppliers)) (normalize_name v)
        = Resolution.unmatched) := by
  have hlen : (supplier_norm suppliers).length = suppliers.length := by
    simp [supplier_norm]
  have h := resolveVendor_spec (supplier_norm suppliers) (normalize_name v)
  refine ⟨?_, ?_, ?_, h.2.2.2.1, h.2.2.2.2⟩
  · intro hmem
    obtain ⟨idx, ha, hb, hc⟩ := h.1 hmem
    exact ⟨idx, ha, hlen ▸ hb, hc⟩
  · intro hnot k hk
    obtain ⟨idx, ha, hb, hc⟩ := h.2.1 hnot k hk
    exact ⟨idx, ha, hlen ▸ hb, hc⟩
  · intro hnot hsub idx mt s hres
    obtain ⟨ha, hb, hc, hd, he, hf⟩ := h.2.2.1 hnot hsub idx mt s hres
    exact ⟨ha, hb, hlen ▸ hc, hd, he, hf⟩

/-- Closed instantiations of `matcher_three_tier`: an exact hit, a substring
hit, a fuzzy hit on reordered tokens, and a full miss. -/
theorem matcher_three_tier_witness :
    (∃ idx, resolveVendor (supplier_index_map (supplier_norm [litS "Acme Corp"]))
        (normalize_name (litS "acme corp")) = Resolution.matched idx (litS "exact") 100
      ∧ idx < ([litS "Acme Corp"] : List Str).length
      ∧ (supplier_norm [litS "Acme Corp"]).getD idx [] = normalize_name (litS "acme corp"))
    ∧ (∃ idx, resolveVendor
          (supplier_index_map (supplier_norm [litS "Acme Corporation International"]))
          (normalize_name (litS "Acme Corp"))
          = Resolution.matched idx (litS "substring") 100
        ∧ idx < ([litS "Acme Corporation International"] : List Str).length
        ∧ (supplier_norm [litS "Acme Corporation International"]).getD idx []
            = normalize_name (litS "Acme Corporation International"))
    ∧ (∃ idx s, resolveVendor (supplier_index_map (supplier_norm [litS "Acme Corp"]))
        (normalize_name (litS "Corp Acme")) = Resolution.matched idx (litS "fuzzy") s)
    ∧ resolveVendor (supplier_index_map (supplier_norm [litS "Acme Corp"]))
        (normalize_name (litS "zzz")) = Resolution.unmatched := by
  refine ⟨(matcher_three_tier [litS "Acme Corp"] (litS "acme corp")).1 (by decide),
    (matcher_three_tier [litS "Acme Corporation International"] (litS "Acme Corp")).2.1
      (by decide) _ (by decide),
    (matcher_three_tier [litS "Acme Corp"] (litS "Corp Acme")).2.2.2.1
      (by decide) (by decide) ?_,
    (matcher_three_tier [litS "Acme Corp"] (litS "zzz")).2.2.2.2
      (by decide) (by decide) ?_⟩
  · refine ⟨normalize_name (litS "Acme Corp"), by simp [supplier_norm], ?_⟩
    rw [show tokenSortScore (normalize_name (litS "Corp Acme")) (normalize_name (litS "Acme Corp"))
        = 100 from by with_unfolding_all rfl]
    rw [show SIMILARITY_THRESHOLD = 85 from rfl]
    norm_num
  · intro d hd
    have hd2 : d = normalize_name (litS "Acme Corp") := by
      simpa [supplier_norm] using hd
    subst hd2
    rw [show tokenSortScore (normalize_name (litS "zzz")) (normalize_name (litS "Acme Corp"))
        = 0 from by with_unfolding_all rfl]
    rw [show SIMILARITY_THRESHOLD = 85 from rfl]
    norm_num

/-! ## Lemmas: the matching loop -/

lemma resolveVendor_matched_mem (smap : List (Str × ℕ)) (nv : Str) (idx : ℕ) (mt : Str)
    (s : ℚ) (h : resolveVendor smap nv = Resolution.matched idx mt s) :
    ∃ k, (k, idx) ∈ smap := by
  cases hfe : alistFind smap nv with
  | some i =>
    rw [resolveVendor_exact_eq smap nv i hfe] at h
    injection h with e1 e2 e3
    exact ⟨nv, e1 ▸ alistFind_mem _ _ _ hfe⟩
  | none =>
    cases hfs : findSubstringIdx smap nv with
    | some i =>
      rw [resolveVendor_substring_eq smap nv i hfe hfs] at h
      injection h with e1 e2 e3
      obtain ⟨k, hk, _⟩ := findSubstringIdx_some_spec smap nv i hfs
      exact ⟨k, e1 ▸ hk⟩
    | none =>
      by_cases hemp : (smap.map (fun p => p.1)).isEmpty = true
      · rw [resolveVendor_empty_eq smap nv hfe hfs hemp] at h
        exact Resolution.noConfusion h
      · cases hcand : extractOneAux nv none (smap.map (fun p => p.1)) with
        | none =>
          rw [resolveVendor_cand_none_eq smap nv hfe hfs hemp hcand] at h
          exact Resolution.noConfusion h
        | some p =>
          obtain ⟨mn, sc⟩ := p
          rw [resolveVendor_fuzzy_some_eq smap nv mn sc hfe hfs hemp hcand] at h
          cases hfm : alistFind smap mn with
          | none =>
            rw [hfm] at h
            exact Resolution.noConfusion h
          | some j =>
            rw [hfm] at h
            injection h with e1 e2 e3
            exact ⟨mn, e1 ▸ alistFind_mem _ _ _ hfm⟩

lemma getD_set_self (l : List ℚ) (i : ℕ) (a : ℚ) (h : i < l.length) :
    (l.set i a).getD i 0 = a := by
  rw [List.getD_eq_getElem?_getD, List.getElem?_set_self h]
  rfl

lemma getD_set_ne (l : List ℚ) (i j : ℕ) (a : ℚ) (h : i ≠ j) :
    (l.set i a).getD j 0 = l.getD j 0 := by
  rw [List.getD_eq_getElem?_getD, List.getElem?_set_ne h, ← List.getD_eq_getElem?_getD]

lemma addedAt_nil (i : ℕ) : addedAt [] i = 0 := rfl

lemma addedAt_append (ms1 ms2 : List MatchRecord) (i : ℕ) :
    addedAt (ms1 ++ ms2) i = addedAt ms1 i + addedAt ms2 i := by
  unfold addedAt
  rw [List.filter_append, List.map_append, List.sum_append]

lemma addedAt_singleton (m : MatchRecord) (i : ℕ) :
    addedAt [m] i = if m.supplierIdx = i then m.amountAdded else 0 := by
  unfold addedAt
  by_cases h : m.supplierIdx = i
  · simp [h]
  · simp [h]

lemma addedAt_cons (m : MatchRecord) (ms : List MatchRecord) (i : ℕ) :
    addedAt (m :: ms) i = (if m.supplierIdx = i then m.amountAdded else 0) + addedAt ms i := by
  rw [show (m :: ms) = [m] ++ ms from rfl, addedAt_append, addedAt_singleton]

lemma foldl_applyVendor_spec (suppliers : List Str) (smap : List (Str × ℕ)) (L : ℕ)
    (hsm : ∀ p ∈ smap, p.2 < L) :
    ∀ (vts : List (Str × ℚ)) (st : MatchState), st.totals.length = L →
      ∃ newms newus,
        (vts.foldl (applyVendor suppliers smap) st).matches_log = st.matches_log ++ newms
        ∧ (vts.foldl (applyVendor suppliers smap) st).unmatched_log
            = st.unmatched_log ++ newus
        ∧ (vts.foldl (applyVendor suppliers smap) st).totals.length = L
        ∧ (∀ m ∈ newms, m.supplierIdx < L)
        ∧ (∀ i, i < L →
            (vts.foldl (applyVendor suppliers smap) st).totals.getD i 0
              = st.totals.getD i 0 + addedAt newms i)
        ∧ (∀ pr : Str × ℚ,
            (newms.filter (fun m => decide ((m.vendor, m.amountAdded) = pr))).length
            + (newus.filter (fun u => decide ((u.vendor, u.amount) = pr))).length
            = (vts.filter (fun p => decide (p = pr))).length) := by
  intro vts
  induction vts with
  | nil =>
    intro st hst
    refine ⟨[], [], by simp, by simp, hst, by simp, ?_, by simp⟩
    intro i hi
    show st.totals.getD i 0 = st.totals.getD i 0 + addedAt [] i
    rw [addedAt_nil, add_zero]
  | cons vt rest ih =>
    intro st hst
    obtain ⟨v1, v2⟩ := vt
    simp only [List.foldl_cons]
    cases hres : resolveVendor smap (normalize_name v1) with
    | matched idx mt sc =>
      have happ : applyVendor suppliers smap st (v1, v2) =
          ⟨st.totals.set idx (st.totals.getD idx 0 + v2),
           st.matches_log ++ [⟨v1, idx, suppliers.getD idx [], mt, sc, v2⟩],
           st.unmatched_log⟩ := by
        unfold applyVendor
        rw [hres]
      obtain ⟨k, hk⟩ := resolveVendor_matched_mem smap _ idx mt sc hres
      have hidxL : idx < L := hsm (k, idx) hk
      obtain ⟨newms, newus, h1, h2, h3, h4, h5, h6⟩ := ih (applyVendor suppliers smap st (v1, v2))
        (by rw [happ]; simpa using hst)
      refine ⟨⟨v1, idx, suppliers.getD idx [], mt, sc, v2⟩ :: newms, newus, ?_, ?_, h3, ?_, ?_, ?_⟩
      · rw [h1, happ]
        simp
      · rw [h2, happ]
      · intro m hm
        rcases List.mem_cons.mp hm with rfl | hm2
        · exact hidxL
        · exact h4 m hm2
      · intro i hi
        rw [h5 i hi, happ, addedAt_cons]
        show (st.totals.set idx (st.totals.getD idx 0 + v2)).getD i 0 + addedAt newms i = _
        by_cases hij : idx = i
        · subst hij
          rw [getD_set_self st.totals idx _ (by rw [hst]; exact hidxL), if_pos rfl]
          ring
        · rw [getD_set_ne st.totals idx i _ hij, if_neg hij]
          ring
      · intro pr
        have h6p := h6 pr
        simp only [List.filter_cons]
        by_cases hpr : ((v1, v2) : Str × ℚ) = pr
        · rw [if_pos (by simpa using hpr), if_pos (by simpa using hpr)]
          simp only [List.length_cons]
          omega
        · rw [if_neg (by simpa using hpr), if_neg (by simpa using hpr)]
          exact h6p
    | unmatched =>
      have happ : applyVendor suppliers smap st (v1, v2) =
          ⟨st.totals, st.matches_log, st.unmatched_log ++ [⟨v1, v2⟩]⟩ := by
        unfold applyVendor
        rw [hres]
      obtain ⟨newms, newus, h1, h2, h3, h4, h5, h6⟩ := ih (applyVendor suppliers smap st (v1, v2))
        (by rw [happ]; exact hst)
      refine ⟨newms, ⟨v1, v2⟩ :: newus, ?_, ?_, h3, h4, ?_, ?_⟩
      · rw [h1, happ]
      · rw [h2, happ]
        simp
      · intro i hi
        rw [h5 i hi, happ]
      · intro pr
        have h6p := h6 pr
        simp only [List.filter_cons]
        by_cases hpr : ((v1, v2) : Str × ℚ) = pr
        · rw [if_pos (by simpa using hpr), if_pos (by simpa using hpr)]
          simp only [List.length_cons]
          omega
        · rw [if_neg (by simpa using hpr), if_neg (by simpa using hpr)]
          exact h6p

/-- The matching loop, applied to the real initial state of `process_matches`. -/
lemma finState_components (ledger : List LedgerRow) (vendorRows : List VendorRow) :
    (finState ledger vendorRows).totals.length = ledger.length
    ∧ (∀ m ∈ (finState ledger vendorRows).matches_log, m.supplierIdx < ledger.length)
    ∧ (∀ i, i < ledger.length →
        (finState ledger vendorRows).totals.getD i 0
          = (invoice_totals0 ledger).getD i 0
            + addedAt (finState ledger vendorRows).matches_log i)
    ∧ (∀ pr : Str × ℚ,
        ((finState ledger vendorRows).matches_log.filter
          (fun m => decide ((m.vendor, m.amountAdded) = pr))).length
        + ((finState ledger vendorRows).unmatched_log.filter
          (fun u => decide ((u.vendor, u.amount) = pr))).length
        = ((vendorGrouped vendorRows).filter (fun p => decide (p = pr))).length) := by
  have hsm : ∀ p ∈ ledgerSmap ledger, p.2 < ledger.length := by
    intro p hp
    unfold ledgerSmap at hp
    have h := supplier_index_map_entries (supplier_norm (ledger.map (fun r => r.supplier))) p hp
    have hlen : (supplier_norm (ledger.map (fun r => r.supplier))).length = ledger.length := by
      simp [supplier_norm]
    rw [hlen] at h
    exact h.1
  have hst : (⟨invoice_totals0 ledger, [], []⟩ : MatchState).totals.length = ledger.length := by
    simp [invoice_totals0, original_invoice]
  obtain ⟨newms, newus, h1, h2, h3, h4, h5, h6⟩ :=
    foldl_applyVendor_spec (ledger.map (fun r => r.supplier)) (ledgerSmap ledger)
      ledger.length hsm (vendorGrouped vendorRows) ⟨invoice_totals0 ledger, [], []⟩ hst
  have hms : (finState ledger vendorRows).matches_log = newms := by
    have := h1
    simpa [finState] using this
  have hus : (finState ledger vendorRows).unmatched_log = newus := by
    have := h2
    simpa [finState] using this
  refine ⟨?_, ?_, ?_, ?_⟩
  · simpa [finState] using h3
  · rw [hms]
    exact h4
  · intro i hi
    rw [hms]
    have := h5 i hi
    simpa [finState] using this
  · intro pr
    rw [hms, hus]
    exact h6 pr

/-- (C6, counterexample) With two ledger rows both named "Acme", the lookup
maps the normalized name to row 1 — the **last** occurrence, not the first —
and an exact match adds the amount to row 1: totals go from [10, 20] to
[10, 25], not [15, 20] as the claim would require. -/
theorem supplier_dup_counterexample :
    alistFind (supplier_index_map (supplier_norm [litS "Acme", litS "Acme"]))
        (normalize_name (litS "Acme")) = some 1
    ∧ (process_matches
        [⟨litS "Acme", litS "m1", some 10⟩, ⟨litS "Acme", litS "m2", some 20⟩]
        [⟨some (litS "Acme"), some (litS "5")⟩]).ledger.map (fun r => r.invoiceTotal)
      = [some 10, some 25]
    ∧ (process_matches
        [⟨litS "Acme", litS "m1", some 10⟩, ⟨litS "Acme", litS "m2", some 20⟩]
        [⟨some (litS "Acme"), some (litS "5")⟩]).matches_log.map (fun m => m.supplierIdx)
      = [1] := by
  refine ⟨by decide, ?_, ?_⟩
  · with_unfolding_all rfl
  · with_unfolding_all rfl

/-- (C6, amended) The normalized-name-to-row-index lookup maps every
duplicated normalized supplier name to the **last** row bearing it (Python
dict comprehension semantics: later assignments overwrite earlier ones), so
an exact match adds the amount to the last occurrence's row.  The lookup
succeeds exactly for names present in the ledger. -/
theorem supplier_index_map_last_occurrence (ns : List Str) (q : Str) :
    (q ∈ ns → ∃ i, alistFind (supplier_index_map ns) q = some i)
    ∧ (∀ i, alistFind (supplier_index_map ns) q = some i →
        i < ns.length ∧ ns.getD i [] = q ∧
        ∀ j, i < j → j < ns.length → ns.getD j [] ≠ q) := by
  constructor
  · intro hmem
    exact alistFind_isSome_of_mem_keys _ q ((mem_keys_supplier_index_map ns q).mpr hmem)
  · intro i hf
    exact supplier_index_map_entries ns (q, i) (alistFind_mem _ _ _ hf)

/-- Closed instantiation of `supplier_index_map_last_occurrence` on the
duplicated ledger of the counterexample. -/
theorem supplier_index_map_last_occurrence_witness :
    (∃ i, alistFind (supplier_index_map [litS "acme", litS "acme"]) (litS "acme") = some i)
    ∧ (1 < ([litS "acme", litS "acme"] : List Str).length
      ∧ ([litS "acme", litS "acme"] : List Str).getD 1 [] = litS "acme"
      ∧ ∀ j, 1 < j → j < ([litS "acme", litS "acme"] : List Str).length
          → ([litS "acme", litS "acme"] : List Str).getD j [] ≠ litS "acme") :=
  ⟨(supplier_index_map_last_occurrence [litS "acme", litS "acme"] (litS "acme")).1 (by decide),
   (supplier_index_map_last_occurrence [litS "acme", litS "acme"] (litS "acme")).2 1 (by decide)⟩

/-- (C7) Schema validation: reconciliation succeeds — returning the full
processing result, whatever the cell contents — exactly when no required
column is missing; a missing ledger column aborts first, then a missing
vendor column, and the error names exactly the missing column(s).  Since the
error is produced before any processing, no partial output exists, and since
`process_matches` is a total function, no cell value can abort a run whose
columns are present. -/
theorem schema_validation (uCols vCols : List Str) (ledger : List LedgerRow)
    (vendorRows : List VendorRow) :
    ((missingFrom requiredUniversalCols uCols = [] ∧ missingFrom requiredVendorCols vCols = [])
      ↔ reconcile uCols vCols ledger vendorRows
          = Except.ok (process_matches ledger vendorRows))
    ∧ (missingFrom requiredUniversalCols uCols ≠ [] →
        reconcile uCols vCols ledger vendorRows
          = Except.error (SchemaError.universalMissing (missingFrom requiredUniversalCols uCols)))
    ∧ (missingFrom requiredUniversalCols uCols = [] →
        missingFrom requiredVendorCols vCols ≠ [] →
        reconcile uCols vCols ledger vendorRows
          = Except.error (SchemaError.vendorMissing (missingFrom requiredVendorCols vCols)))
    ∧ (∀ c, c ∈ missingFrom requiredUniversalCols uCols
        ↔ c ∈ requiredUniversalCols ∧ c ∉ uCols)
    ∧ (∀ c, c ∈ missingFrom requiredVendorCols vCols
        ↔ c ∈ requiredVendorCols ∧ c ∉ vCols) := by
  refine ⟨?_, ?_, ?_, ?_, ?_⟩
  · constructor
    · intro ⟨h1, h2⟩
      unfold reconcile
      rw [if_neg (by simp [h1]), if_neg (by simp [h2])]
    · intro h
      unfold reconcile at h
      by_cases h1 : missingFrom requiredUniversalCols uCols = []
      · by_cases h2 : missingFrom requiredVendorCols vCols = []
        · exact ⟨h1, h2⟩
        · rw [if_neg (by simp [h1]), if_pos h2] at h
          exact Except.noConfusion h
      · rw [if_pos h1] at h
        exact Except.noConfusion h
  · intro h1
    unfold reconcile
    rw [if_pos h1]
  · intro h1 h2
    unfold reconcile
    rw [if_neg (by simp [h1]), if_pos h2]
  · intro c
    unfold missingFrom
    rw [List.mem_filter]
    simp
  · intro c
    unfold missingFrom
    rw [List.mem_filter]
    simp

/-- Closed instantiation of `schema_validation`: a ledger missing two of its
three required columns fails with exactly those columns named, and complete
columns succeed. -/
theorem schema_validation_witness :
    reconcile [litS "Supplier"] [litS "Vendor", litS "Invoice Amount"] [] []
      = Except.error (SchemaError.universalMissing
          (missingFrom requiredUniversalCols [litS "Supplier"]))
    ∧ reconcile requiredUniversalCols requiredVendorCols [] []
      = Except.ok (process_matches [] []) :=
  ⟨(schema_validation [litS "Supplier"] [litS "Vendor", litS "Invoice Amount"] [] []).2.1
      (by decide),
   ((schema_validation requiredUniversalCols requiredVendorCols [] []).1).mp
      ⟨by decide, by decide⟩⟩

lemma getD_map {α β : Type} (f : α → β) (l : List α) (i : ℕ) (d : β) (d0 : α)
    (h : i < l.length) : (l.map f).getD i d = f (l.getD i d0) := by
  rw [List.getD_eq_getElem _ _ (by rw [List.length_map]; exact h), List.getElem_map,
    List.getD_eq_getElem _ _ h]

lemma getD_zip {α β : Type} (l1 : List α) (l2 : List β) (i : ℕ) (d1 : α) (d2 : β)
    (h1 : i < l1.length) (h2 : i < l2.length) :
    (l1.zip l2).getD i (d1, d2) = (l1.getD i d1, l2.getD i d2) := by
  rw [List.getD_eq_getElem _ _ (by rw [List.length_zip]; exact lt_min h1 h2),
    List.getElem_zip, List.getD_eq_getElem _ _ h1, List.getD_eq_getElem _ _ h2]

lemma updated_invoice_length (ledger : List LedgerRow) (vendorRows : List VendorRow) :
    (updated_invoice ledger vendorRows).length = ledger.length := by
  have hlen := (finState_components ledger vendorRows).1
  simp [updated_invoice, original_invoice, hlen]

lemma process_matches_ledger_getD (ledger : List LedgerRow) (vendorRows : List VendorRow)
    (i : ℕ) (hi : i < ledger.length) :
    ((process_matches ledger vendorRows).ledger.getD i ⟨[], [], none⟩).invoiceTotal
      = if (ledger.getD i ⟨[], [], none⟩).invoiceTotal = none
            ∧ (finState ledger vendorRows).totals.getD i 0 = 0 then none
        else some ((finState ledger vendorRows).totals.getD i 0) := by
  have hlen := (finState_components ledger vendorRows).1
  have hul := updated_invoice_length ledger vendorRows
  have hiu : i < (updated_invoice ledger vendorRows).length := by rw [hul]; exact hi
  have hizip : i < (ledger.zip (updated_invoice ledger vendorRows)).length := by
    rw [List.length_zip]
    exact lt_min hi hiu
  have hiorig : i < (original_invoice ledger).length := by
    simpa [original_invoice] using hi
  have hitot : i < (finState ledger vendorRows).totals.length := by
    rw [hlen]; exact hi
  rw [show (process_matches ledger vendorRows).ledger
      = (ledger.zip (updated_invoice ledger vendorRows)).map
          (fun p => { p.1 with invoiceTotal := p.2 }) from rfl,
    getD_map _ _ i _ ((⟨[], [], none⟩ : LedgerRow), (none : Option ℚ)) hizip,
    getD_zip _ _ i ⟨[], [], none⟩ none hi hiu]
  show (updated_invoice ledger vendorRows).getD i none = _
  rw [show updated_invoice ledger vendorRows
      = ((original_invoice ledger).zip (finState ledger vendorRows).totals).map
          (fun p => if p.1 = none ∧ p.2 = 0 then none else some p.2) from rfl,
    getD_map _ _ i _ ((none : Option ℚ), (0 : ℚ)) (by rw [List.length_zip]; exact lt_min hiorig hitot),
    getD_zip _ _ i none 0 hiorig hitot]
  rw [show original_invoice ledger = ledger.map (fun r : LedgerRow => r.invoiceTotal) from rfl,
    getD_map _ _ i _ (⟨[], [], none⟩ : LedgerRow) hi]

/-- (C2) For every ledger row, the output `Invoice Total` is the original
parsed value (0 if blank/unparseable) plus the sum of the `amount_added`
values of the match records targeting that row — except that a row whose
original total was blank and whose running total is exactly zero is output
as blank rather than 0. -/
theorem ledger_total_additivity (ledger : List LedgerRow) (vendorRows : List VendorRow)
    (i : ℕ) (hi : i < ledger.length) :
    ((process_matches ledger vendorRows).ledger.getD i ⟨[], [], none⟩).invoiceTotal
      = if (ledger.getD i ⟨[], [], none⟩).invoiceTotal = none
            ∧ (ledger.getD i ⟨[], [], none⟩).invoiceTotal.getD 0
               + addedAt (process_matches ledger vendorRows).matches_log i = 0
        then none
        else some ((ledger.getD i ⟨[], [], none⟩).invoiceTotal.getD 0
               + addedAt (process_matches ledger vendorRows).matches_log i) := by
  have htot := (finState_components ledger vendorRows).2.2.1 i hi
  have hiorig : i < (original_invoice ledger).length := by
    simpa [original_invoice] using hi
  have hinit : (invoice_totals0 ledger).getD i 0
      = (ledger.getD i ⟨[], [], none⟩).invoiceTotal.getD 0 := by
    rw [show invoice_totals0 ledger
        = (original_invoice ledger).map (fun o : Option ℚ => o.getD 0) from rfl,
      getD_map _ _ i _ (none : Option ℚ) hiorig,
      show original_invoice ledger = ledger.map (fun r : LedgerRow => r.invoiceTotal) from rfl,
      getD_map _ _ i _ (⟨[], [], none⟩ : LedgerRow) hi]
  have hms : (process_matches ledger vendorRows).matches_log
      = (finState ledger vendorRows).matches_log := rfl
  rw [process_matches_ledger_getD ledger vendorRows i hi, hms, htot, hinit]

/-- Closed instantiation of `ledger_total_additivity`: a ledger row starting
at 10 that receives an exact match of 5 is output as 15 = 10 + 5. -/
theorem ledger_total_additivity_witness :
    ((process_matches [⟨litS "Acme", litS "pm", some 10⟩]
        [⟨some (litS "Acme"), some (litS "5")⟩]).ledger.getD 0 ⟨[], [], none⟩).invoiceTotal
      = if (([⟨litS "Acme", litS "pm", some 10⟩] : List LedgerRow).getD 0
              ⟨[], [], none⟩).invoiceTotal = none
            ∧ (([⟨litS "Acme", litS "pm", some 10⟩] : List LedgerRow).getD 0
                ⟨[], [], none⟩).invoiceTotal.getD 0
               + addedAt (process_matches [⟨litS "Acme", litS "pm", some 10⟩]
                  [⟨some (litS "Acme"), some (litS "5")⟩]).matches_log 0 = 0
        then none
        else some ((([⟨litS "Acme", litS "pm", some 10⟩] : List LedgerRow).getD 0
                ⟨[], [], none⟩).invoiceTotal.getD 0
               + addedAt (process_matches [⟨litS "Acme", litS "pm", some 10⟩]
                  [⟨some (litS "Acme"), some (litS "5")⟩]).matches_log 0) :=
  ledger_total_additivity [⟨litS "Acme", litS "pm", some 10⟩]
    [⟨some (litS "Acme"), some (litS "5")⟩] 0 (by decide)

/-- (C8) Frame property: reconciliation touches only the `Invoice Total`
column — the output ledger has exactly as many rows, in the same order, and
every row's `Supplier` and `Default payment method` are passed through
unmodified.  (The Lean model is a pure function, mirroring that the core
mutates only its own copy, `universal_df.copy()`, and has no side effects.) -/
theorem frame_only_invoice_total (ledger : List LedgerRow) (vendorRows : List VendorRow) :
    (process_matches ledger vendorRows).ledger.length = ledger.length
    ∧ ∀ i, i < ledger.length →
        ((process_matches ledger vendorRows).ledger.getD i ⟨[], [], none⟩).supplier
            = (ledger.getD i ⟨[], [], none⟩).supplier
          ∧ ((process_matches ledger vendorRows).ledger.getD i ⟨[], [], none⟩).payMethod
            = (ledger.getD i ⟨[], [], none⟩).payMethod := by
  have hul := updated_invoice_length ledger vendorRows
  have hlen : (process_matches ledger vendorRows).ledger.length = ledger.length := by
    rw [show (process_matches ledger vendorRows).ledger
        = (ledger.zip (updated_invoice ledger vendorRows)).map
            (fun p => { p.1 with invoiceTotal := p.2 }) from rfl,
      List.length_map, List.length_zip, hul]
    simp
  refine ⟨hlen, ?_⟩
  intro i hi
  have hiu : i < (updated_invoice ledger vendorRows).length := by rw [hul]; exact hi
  have hizip : i < (ledger.zip (updated_invoice ledger vendorRows)).length := by
    rw [List.length_zip]
    exact lt_min hi hiu
  rw [show (process_matches ledger vendorRows).ledger
      = (ledger.zip (updated_invoice ledger vendorRows)).map
          (fun p => { p.1 with invoiceTotal := p.2 }) from rfl,
    getD_map _ _ i _ ((⟨[], [], none⟩ : LedgerRow), (none : Option ℚ)) hizip,
    getD_zip _ _ i ⟨[], [], none⟩ none hi hiu]
  exact ⟨rfl, rfl⟩

/-- Closed instantiation of `frame_only_invoice_total`. -/
theorem frame_only_invoice_total_witness :
    (process_matches [⟨litS "Acme", litS "pm", some 10⟩]
        [⟨some (litS "Acme"), some (litS "5")⟩]).ledger.length = 1
    ∧ ((process_matches [⟨litS "Acme", litS "pm", some 10⟩]
          [⟨some (litS "Acme"), some (litS "5")⟩]).ledger.getD 0 ⟨[], [], none⟩).supplier
        = (([⟨litS "Acme", litS "pm", some 10⟩] : List LedgerRow).getD 0 ⟨[], [], none⟩).supplier
    ∧ ((process_matches [⟨litS "Acme", litS "pm", some 10⟩]
          [⟨some (litS "Acme"), some (litS "5")⟩]).ledger.getD 0 ⟨[], [], none⟩).payMethod
        = (([⟨litS "Acme", litS "pm", some 10⟩] : List LedgerRow).getD 0 ⟨[], [], none⟩).payMethod :=
  ⟨(frame_only_invoice_total [⟨litS "Acme", litS "pm", some 10⟩]
      [⟨some (litS "Acme"), some (litS "5")⟩]).1,
   ((frame_only_invoice_total [⟨litS "Acme", litS "pm", some 10⟩]
      [⟨some (litS "Acme"), some (litS "5")⟩]).2 0 (by decide)).1,
   ((frame_only_invoice_total [⟨litS "Acme", litS "pm", some 10⟩]
      [⟨some (litS "Acme"), some (litS "5")⟩]).2 0 (by decide)).2⟩

lemma foldl_applyVendor_empty_map (suppliers : List Str) :
    ∀ (vts : List (Str × ℚ)) (ms : List MatchRecord) (us : List UnmatchedRecord),
      vts.foldl (applyVendor suppliers []) ⟨[], ms, us⟩
        = ⟨[], ms, us ++ vts.map (fun p => ⟨p.1, p.2⟩)⟩ := by
  intro vts
  induction vts with
  | nil => intro ms us; simp
  | cons vt rest ih =>
    intro ms us
    obtain ⟨v1, v2⟩ := vt
    simp only [List.foldl_cons]
    have happ : applyVendor suppliers [] ⟨[], ms, us⟩ (v1, v2)
        = ⟨[], ms, us ++ [⟨v1, v2⟩]⟩ := by
      unfold applyVendor
      rw [show resolveVendor [] (normalize_name v1) = Resolution.unmatched from rfl]
    rw [happ, ih]
    simp

/-- (C10) With the required columns present and an empty supplier ledger,
reconciliation does not fail: it returns the empty ledger, an empty match
log, and every vendor total in the unmatched log with its summed amount. -/
theorem empty_ledger_behavior (uCols vCols : List Str) (vendorRows : List VendorRow)
    (h1 : missingFrom requiredUniversalCols uCols = [])
    (h2 : missingFrom requiredVendorCols vCols = []) :
    reconcile uCols vCols [] vendorRows
      = Except.ok ⟨[], [], (vendorGrouped vendorRows).map (fun p => ⟨p.1, p.2⟩)⟩ := by
  unfold reconcile
  rw [if_neg (by simp [h1]), if_neg (by simp [h2])]
  have hfin : finState [] vendorRows
      = ⟨[], [], [] ++ (vendorGrouped vendorRows).map (fun p => ⟨p.1, p.2⟩)⟩ := by
    unfold finState
    rw [show ledgerSmap [] = ([] : List (Str × ℕ)) from rfl,
      show invoice_totals0 [] = ([] : List ℚ) from rfl]
    exact foldl_applyVendor_empty_map _ (vendorGrouped vendorRows) [] []
  have hml : (process_matches [] vendorRows).matches_log = [] := by
    show (finState [] vendorRows).matches_log = []
    rw [hfin]
  have hul : (process_matches [] vendorRows).unmatched_log
      = (vendorGrouped vendorRows).map (fun p => ⟨p.1, p.2⟩) := by
    show (finState [] vendorRows).unmatched_log = _
    rw [hfin]
    simp
  have hld : (process_matches [] vendorRows).ledger = [] := rfl
  congr 1
  rw [show (process_matches [] vendorRows)
      = ⟨(process_matches [] vendorRows).ledger, (process_matches [] vendorRows).matches_log,
         (process_matches [] vendorRows).unmatched_log⟩ from rfl, hml, hul, hld]

/-- Closed instantiation of `empty_ledger_behavior`. -/
theorem empty_ledger_behavior_witness :
    reconcile requiredUniversalCols requiredVendorCols []
        [⟨some (litS "Acme"), some (litS "5")⟩]
      = Except.ok ⟨[], [],
          (vendorGrouped [⟨some (litS "Acme"), some (litS "5")⟩]).map (fun p => ⟨p.1, p.2⟩)⟩ :=
  empty_ledger_behavior requiredUniversalCols requiredVendorCols
    [⟨some (litS "Acme"), some (litS "5")⟩] (by decide) (by decide)

lemma keys_addToGroup : ∀ (acc : List (Str × ℚ)) (v : Str) (q : ℚ),
    (addToGroup acc v q).map (fun p => p.1)
      = if v ∈ acc.map (fun p => p.1) then acc.map (fun p => p.1)
        else acc.map (fun p => p.1) ++ [v] := by
  intro acc
  induction acc with
  | nil => intro v q; simp [addToGroup]
  | cons e rest ih =>
    intro v q
    obtain ⟨w, s⟩ := e
    unfold addToGroup
    by_cases hw : w = v
    · subst hw
      rw [if_pos rfl]
      simp
    · rw [if_neg hw]
      simp only [List.map_cons]
      rw [ih v q]
      by_cases hmem : v ∈ rest.map (fun p => p.1)
      · rw [if_pos hmem, if_pos (by simp [hmem])]
      · have hnotin : ¬ v ∈ w :: rest.map (fun p => p.1) := by
          simp only [List.mem_cons]
          rintro (h | h)
          · exact hw h.symm
          · exact hmem h
        rw [if_neg hmem, if_neg hnotin]
        simp

lemma groupSum_aux_nodup : ∀ (l : List (Str × ℚ)) (acc : List (Str × ℚ)),
    (acc.map (fun p => p.1)).Nodup →
    ((l.foldl (fun a p => addToGroup a p.1 p.2) acc).map (fun p => p.1)).Nodup := by
  intro l
  induction l with
  | nil => intro acc h; exact h
  | cons e rest ih =>
    intro acc h
    simp only [List.foldl_cons]
    refine ih (addToGroup acc e.1 e.2) ?_
    rw [keys_addToGroup]
    by_cases hmem : e.1 ∈ acc.map (fun p => p.1)
    · rwa [if_pos hmem]
    · rw [if_neg hmem]
      refine List.Nodup.append h (by simp) ?_
      simpa using hmem

lemma groupSum_keys_nodup (l : List (Str × ℚ)) : ((groupSum l).map (fun p => p.1)).Nodup :=
  groupSum_aux_nodup l [] (by simp)

lemma filter_eq_len_one_of_nodup :
    ∀ (l : List (Str × ℚ)), l.Nodup → ∀ a ∈ l,
      (l.filter (fun x => decide (x = a))).length = 1 := by
  intro l
  induction l with
  | nil => intro _ a ha; cases ha
  | cons b rest ih =>
    intro hnd a ha
    rw [List.nodup_cons] at hnd
    obtain ⟨hbn, hndr⟩ := hnd
    simp only [List.filter_cons]
    rcases List.mem_cons.mp ha with rfl | ha2
    · rw [if_pos (by simp)]
      have hempty : rest.filter (fun x => decide (x = a)) = [] := by
        refine List.filter_eq_nil_iff.mpr ?_
        intro x hx
        simp only [decide_eq_true_eq]
        rintro rfl
        exact hbn hx
      rw [List.length_cons, hempty]
      rfl
    · by_cases hba : b = a
      · subst hba
        exact absurd ha2 hbn
      · rw [if_neg (by simpa using hba)]
        exact ih hndr a ha2

/-- (C3) Partition invariant: every VendorTotal produced by the sectionizer
appears in exactly one of the match log and the unmatched log — the number of
records carrying its (vendor, amount) pair across the two logs is exactly
one. -/
theorem vendor_totals_partition (ledger : List LedgerRow) (vendorRows : List VendorRow)
    (vt : Str × ℚ) (hvt : vt ∈ vendorGrouped vendorRows) :
    ((process_matches ledger vendorRows).matches_log.filter
        (fun m => decide ((m.vendor, m.amountAdded) = vt))).length
    + ((process_matches ledger vendorRows).unmatched_log.filter
        (fun u => decide ((u.vendor, u.amount) = vt))).length = 1 := by
  have hcnt := (finState_components ledger vendorRows).2.2.2 vt
  have hnd : (vendorGrouped vendorRows).Nodup :=
    List.Nodup.of_map _ (groupSum_keys_nodup (sectionTotals vendorRows))
  have h1 := filter_eq_len_one_of_nodup (vendorGrouped vendorRows) hnd vt hvt
  rw [show (process_matches ledger vendorRows).matches_log
      = (finState ledger vendorRows).matches_log from rfl,
    show (process_matches ledger vendorRows).unmatched_log
      = (finState ledger vendorRows).unmatched_log from rfl,
    hcnt, h1]

/-- Closed instantiation of `vendor_totals_partition`. -/
theorem vendor_totals_partition_witness :
    ((process_matches [⟨litS "Acme", litS "pm", some 10⟩]
        [⟨some (litS "Acme"), some (litS "5")⟩]).matches_log.filter
        (fun m => decide ((m.vendor, m.amountAdded) = (litS "Acme", (5 : ℚ))))).length
    + ((process_matches [⟨litS "Acme", litS "pm", some 10⟩]
        [⟨some (litS "Acme"), some (litS "5")⟩]).unmatched_log.filter
        (fun u => decide ((u.vendor, u.amount) = (litS "Acme", (5 : ℚ))))).length = 1 :=
  vendor_totals_partition [⟨litS "Acme", litS "pm", some 10⟩]
    [⟨some (litS "Acme"), some (litS "5")⟩] (litS "Acme", 5) (by
      rw [show vendorGrouped [⟨some (litS "Acme"), some (litS "5")⟩]
          = [(litS "Acme", (5 : ℚ))] from by with_unfolding_all rfl]
      simp)
